import Mathlib

set_option maxRecDepth 100000

/-!
Verification development for the PII tokenization engine of the NL2SQL_System
repository (files `privacy/encoder.py`, `privacy/decoder.py`,
`app/services/redis.py`).

Modelling conventions:
* Python strings are `List Char`; Python byte strings are `List Nat`
  (each element a byte value).
* The process-global mutable state (`_token_store`, the Redis connection and
  its `pii:*` keyspace, and the `.token_store.json` file) is gathered in the
  `Store` structure and threaded explicitly.
* The entity-recognition capability (Presidio) is external to the repository
  (spec section 1 declares it out of scope, consumed as a capability), so the
  model-backed analyzer is a parameter, and `encode_query` receives the result
  of its single `detect_pii` call as the `detected` argument.
* `machine` integers do not occur: all arithmetic in the SHA-256 embedding is
  on `Nat` with explicit `% 4294967296` where 32-bit overflow matters.
* Detection confidence scores are advisory floating-point values that no code
  path reads; they are omitted from the `Span` record.
* Python set iteration order is unspecified; `decode_text` iterates the
  deduplicated found tokens in the fixed order given by `List.dedup`.
-/

/-! ## Character classes of the token grammar -/

def isUpperAZ (c : Char) : Bool := 65 ≤ c.toNat && c.toNat ≤ 90

/-- One character of the `[A-Z_]` class of the token regex. -/
def isTokBodyChar (c : Char) : Bool := isUpperAZ c || c.toNat == 95

/-- One character of the `[0-9A-F]` class of the token regex. -/
def isHexUpChar (c : Char) : Bool :=
  (48 ≤ c.toNat && c.toNat ≤ 57) || (65 ≤ c.toNat && c.toNat ≤ 70)

/-! ## The token grammar `\[[A-Z_]+_[0-9A-F]{8}\]` -/

/-- A token string assembled from its `[A-Z_]+` part `T` and its
`[0-9A-F]{8}` part `H`. -/
def mkTok (T H : List Char) : List Char :=
  '[' :: (T ++ '_' :: (H ++ [']']))

/-- `tk` matches the full token grammar `\[[A-Z_]+_[0-9A-F]{8}\]`. -/
def IsToken (tk : List Char) : Prop :=
  ∃ T H, tk = mkTok T H ∧ T ≠ [] ∧ (∀ c ∈ T, isTokBodyChar c) ∧
    H.length = 8 ∧ (∀ c ∈ H, isHexUpChar c)

/-- `s` has no substring matching the token grammar. -/
def NoTokSub (s : List Char) : Prop :=
  ∀ a tk b, s = a ++ tk ++ b → ¬ IsToken tk

/-! ## The scanner used by `decode_text` (re.findall of the token pattern) -/

/-- Does `l` match `_[0-9A-F]{8}\]` followed by anything? -/
def tailMatch (l : List Char) : Bool :=
  match l with
  | c :: t => c == '_' && ((t.take 8).all isHexUpChar && ((t.drop 8).head? == some ']'))
  | [] => false

/-- Greedy match of the token regex at the head of `s`: returns the length
of the `[A-Z_]+` part when `s` starts with a token (the whole match then has
length `ℓ + 11`).  The split point is unique (`parse_unique` below), so
searching candidate lengths in ascending order agrees with the regex
engine's greedy backtracking. -/
def matchLen (s : List Char) : Option Nat :=
  match s with
  | c :: rest =>
    if c = '[' then
      ((List.range (rest.takeWhile isTokBodyChar).length).map (· + 1)).find?
        (fun ℓ => tailMatch (rest.drop ℓ))
    else none
  | [] => none

/-- Fueled scanner: one unit of fuel per step; `findAll` supplies enough. -/
def findAllGo : Nat → List Char → List (List Char)
  | 0, _ => []
  | _ + 1, [] => []
  | f + 1, c :: rest =>
    match matchLen (c :: rest) with
    | some ℓ => (c :: rest).take (ℓ + 11) :: findAllGo f ((c :: rest).drop (ℓ + 11))
    | none => findAllGo f rest

/-- All non-overlapping matches of the token pattern, left to right:
`re.findall(r"\[[A-Z_]+_[0-9A-F]{8}\]", text)` in `decode_text`. -/
def findAll (s : List Char) : List (List Char) := findAllGo s.length s

/-! ## Python `str.replace` on char lists -/

/-- Fueled worker for `replaceAll`. -/
def replaceAllGo (t v : List Char) : Nat → List Char → List Char
  | 0, s => s
  | _ + 1, [] => []
  | f + 1, c :: rest =>
    if t ≠ [] ∧ t.isPrefixOf (c :: rest) then
      v ++ replaceAllGo t v f ((c :: rest).drop t.length)
    else c :: replaceAllGo t v f rest

/-- `s.replace(t, v)`: replace every non-overlapping occurrence of `t` in
`s`, left to right, by `v`.  (`decode_text` only calls this with the
non-empty tokens returned by the scanner, so Python's special behaviour for
an empty pattern is irrelevant; for `t = []` this returns `s`.) -/
def replaceAll (t v s : List Char) : List Char := replaceAllGo t v s.length s

/-! ## Python slicing on char lists -/

/-- `text[a:b]` for `0 ≤ a, b` (Python clamps out-of-range indices). -/
def sliceStr (text : List Char) (a b : Nat) : List Char :=
  (text.drop a).take (b - a)

/-! ## Detected spans (`detect_pii` output records) -/

/-- One detected PII occurrence: `{"entity_type": ..., "start": ..., "end":
...}`.  The Python field `end` is a Lean keyword and is called `stop` here;
the advisory `score` field is never read by the encoder and is omitted. -/
structure Span where
  entity_type : List Char
  start : Nat
  stop : Nat
deriving DecidableEq, Repr

/-! ## Association-list model of the Python dicts / keyspaces -/

/-- `d.get(k)` on an association list. -/
def lookupA (m : List (List Char × List Char)) (k : List Char) : Option (List Char) :=
  match m with
  | [] => none
  | (k', v) :: rest => if k' = k then some v else lookupA rest k

/-- `d[k] = v` on an association list (overwrite semantics). -/
def insertA (m : List (List Char × List Char)) (k v : List Char) :
    List (List Char × List Char) :=
  (k, v) :: m.filter (fun p => p.1 ≠ k)

/-- Lookup in the external tier, which also records each entry's TTL. -/
def lookupR (m : List (List Char × List Char × Nat)) (k : List Char) :
    Option (List Char) :=
  match m with
  | [] => none
  | (k', v, _) :: rest => if k' = k then some v else lookupR rest k

/-- Lookup in the external tier returning the value together with its TTL. -/
def lookupRT (m : List (List Char × List Char × Nat)) (k : List Char) :
    Option (List Char × Nat) :=
  match m with
  | [] => none
  | (k', v, t) :: rest => if k' = k then some (v, t) else lookupRT rest k

/-- `setex` on the external tier. -/
def insertR (m : List (List Char × List Char × Nat)) (k v : List Char)
    (ttl : Nat) : List (List Char × List Char × Nat) :=
  (k, v, ttl) :: m.filter (fun p => p.1 ≠ k)

/-- The shared mutable state of the tokenization engine: the in-process
dict `_token_store`, the Redis connection flag and its `pii:*` keyspace
(`RedisService`), and the parsed contents of `.token_store.json`. -/
structure Store where
  token_store : List (List Char × List Char)
  redisConnected : Bool
  redisPii : List (List Char × List Char × Nat)
  tokenFile : List (List Char × List Char)
deriving DecidableEq, Repr

/-- Python truthiness of `encrypted_val` in the decoder: `None` and the
empty string are both falsy. -/
def truthy : Option (List Char) → Bool
  | none => false
  | some v => !v.isEmpty

/-! ## CipherVault, modelled from the spec

Modelled from the spec: `encrypt_value` / `decrypt_value` live in
`privacy/config.py`, which is not part of the given sources.  Spec section
4.3 specifies authenticated symmetric encryption: `encrypt` is injective and
reversible, and `decrypt` fails (DecryptionError) on malformed ciphertext or
a ciphertext of a different scheme.  The model prefixes a scheme tag;
decryption strips it and rejects any string not carrying it. -/

def fernetTag : List Char := ['F', 'E', 'R', 'N', 'E', 'T', ':']

/-- Modelled from the spec: `privacy.config.encrypt_value`. -/
def encrypt_value (v : List Char) : List Char := fernetTag ++ v

/-- Modelled from the spec: `privacy.config.decrypt_value`; `none` stands
for a raised `DecryptionError`. -/
def decrypt_value (c : List Char) : Option (List Char) :=
  if fernetTag.isPrefixOf c then some (c.drop fernetTag.length) else none

/-! ## SHA-256 (`hashlib.sha256`), over `Nat` with explicit mod 2^32 -/

def rotr32 (x n : Nat) : Nat := ((x >>> n) ||| (x <<< (32 - n))) % 4294967296

def shaK : List Nat :=
  [1116352408, 1899447441, 3049323471, 3921009573, 961987163, 1508970993,
   2453635748, 2870763221, 3624381080, 310598401, 607225278, 1426881987,
   1925078388, 2162078206, 2614888103, 3248222580, 3835390401, 4022224774,
   264347078, 604807628, 770255983, 1249150122, 1555081692, 1996064986,
   2554220882, 2821834349, 2952996808, 3210313671, 3336571891, 3584528711,
   113926993, 338241895, 666307205, 773529912, 1294757372, 1396182291,
   1695183700, 1986661051, 2177026350, 2456956037, 2730485921, 2820302411,
   3259730800, 3345764771, 3516065817, 3600352804, 4094571909, 275423344,
   430227734, 506948616, 659060556, 883997877, 958139571, 1322822218,
   1537002063, 1747873779, 1955562222, 2024104815, 2227730452, 2361852424,
   2428436474, 2756734187, 3204031479, 3329325298]

structure Hash8 where
  a : Nat
  b : Nat
  c : Nat
  d : Nat
  e : Nat
  f : Nat
  g : Nat
  h : Nat

def shaInit : Hash8 :=
  ⟨1779033703, 3144134277, 1013904242, 2773480762, 1359893119, 2600822924, 528734635, 1541459225⟩

def ssig0 (x : Nat) : Nat := (rotr32 x 7) ^^^ (rotr32 x 18) ^^^ (x >>> 3)
def ssig1 (x : Nat) : Nat := (rotr32 x 17) ^^^ (rotr32 x 19) ^^^ (x >>> 10)
def bsig0 (x : Nat) : Nat := (rotr32 x 2) ^^^ (rotr32 x 13) ^^^ (rotr32 x 22)
def bsig1 (x : Nat) : Nat := (rotr32 x 6) ^^^ (rotr32 x 11) ^^^ (rotr32 x 25)

/-- Message-schedule extension from 16 to 64 words. -/
def extendW (w : List Nat) : List Nat :=
  (List.range 48).foldl (fun acc i =>
    acc ++ [(ssig1 (acc.getD (i + 14) 0) + acc.getD (i + 9) 0 +
             ssig0 (acc.getD (i + 1) 0) + acc.getD i 0) % 4294967296]) w

/-- One compression round. -/
def round1 (st : Hash8) (kw : Nat × Nat) : Hash8 :=
  let t1 := (st.h + bsig1 st.e + ((st.e &&& st.f) ^^^ ((4294967295 ^^^ st.e) &&& st.g)) +
             kw.1 + kw.2) % 4294967296
  let t2 := (bsig0 st.a + ((st.a &&& st.b) ^^^ (st.a &&& st.c) ^^^ (st.b &&& st.c))) % 4294967296
  ⟨(t1 + t2) % 4294967296, st.a, st.b, st.c, (st.d + t1) % 4294967296, st.e, st.f, st.g⟩

def bytesToWords : List Nat → List Nat
  | b1 :: b2 :: b3 :: b4 :: rest => (b1 * 16777216 + b2 * 65536 + b3 * 256 + b4) :: bytesToWords rest
  | _ => []

def compressBlock (st : Hash8) (block : List Nat) : Hash8 :=
  let w := extendW (bytesToWords block)
  let r := (shaK.zip w).foldl round1 st
  ⟨(st.a + r.a) % 4294967296, (st.b + r.b) % 4294967296, (st.c + r.c) % 4294967296,
   (st.d + r.d) % 4294967296, (st.e + r.e) % 4294967296, (st.f + r.f) % 4294967296,
   (st.g + r.g) % 4294967296, (st.h + r.h) % 4294967296⟩

/-- Merkle–Damgård padding to a multiple of 64 bytes with the 64-bit
big-endian bit length. -/
def shaPad (msg : List Nat) : List Nat :=
  let len := msg.length
  let lenBits := len * 8
  msg ++ [128] ++ List.replicate ((119 - len % 64) % 64) 0 ++
    [lenBits / 72057594037927936 % 256, lenBits / 281474976710656 % 256,
     lenBits / 1099511627776 % 256, lenBits / 4294967296 % 256,
     lenBits / 16777216 % 256, lenBits / 65536 % 256, lenBits / 256 % 256, lenBits % 256]

def chunks64Go : Nat → List Nat → List (List Nat)
  | 0, _ => []
  | _ + 1, [] => []
  | f + 1, x :: xs => (x :: xs).take 64 :: chunks64Go f ((x :: xs).drop 64)

def chunks64 (l : List Nat) : List (List Nat) := chunks64Go l.length l

def word4 (w : Nat) : List Nat := [w / 16777216 % 256, w / 65536 % 256, w / 256 % 256, w % 256]

/-- `hashlib.sha256(msg).digest()` as a list of byte values. -/
def sha256bytes (msg : List Nat) : List Nat :=
  let f := (chunks64 (shaPad msg)).foldl compressBlock shaInit
  word4 f.a ++ word4 f.b ++ word4 f.c ++ word4 f.d ++
    word4 f.e ++ word4 f.f ++ word4 f.g ++ word4 f.h

/-- Lower-case hex digit (argument taken mod 16 at every call site). -/
def hexChar (n : Nat) : Char := if n < 10 then Char.ofNat (48 + n) else Char.ofNat (87 + n)

/-- `hashlib.sha256(msg).hexdigest()`. -/
def sha256hex (msg : List Nat) : List Char :=
  (sha256bytes msg).flatMap fun b => [hexChar (b / 16 % 16), hexChar (b % 16)]

/-- UTF-8 encoding of one character (`str.encode`). -/
def utf8Char (c : Char) : List Nat :=
  let n := c.toNat
  if n < 128 then [n]
  else if n < 2048 then [192 + n / 64, 128 + n % 64]
  else if n < 65536 then [224 + n / 4096, 128 + n / 64 % 64, 128 + n % 64]
  else [240 + n / 262144, 128 + n / 4096 % 64, 128 + n / 64 % 64, 128 + n % 64]

/-- `value.encode()`: UTF-8 bytes of a string. -/
def utf8Encode (s : List Char) : List Nat := s.flatMap utf8Char

/-! ## TokenCodec: `get_token_hash` (encoder.py lines 159-164) -/

/-- `get_token_hash(value, entity_type)`: `f"[{entity_type}_{short_hash}]"`
with `short_hash = sha256(value.encode()).hexdigest()[:8].upper()`. -/
def get_token_hash (value entity_type : List Char) : List Char :=
  ['['] ++ entity_type ++ ['_'] ++
    ((sha256hex (utf8Encode value)).take 8).map Char.toUpper ++ [']']

/-! ## The recognized entity set (encoder.py lines 16-23) -/

def etPERSON : List Char := ['P', 'E', 'R', 'S', 'O', 'N']
def etORGANIZATION : List Char := ['O', 'R', 'G', 'A', 'N', 'I', 'Z', 'A', 'T', 'I', 'O', 'N']
def etLOCATION : List Char := ['L', 'O', 'C', 'A', 'T', 'I', 'O', 'N']
def etEMAIL : List Char := ['E', 'M', 'A', 'I', 'L', '_', 'A', 'D', 'D', 'R', 'E', 'S', 'S']
def etPHONE : List Char := ['P', 'H', 'O', 'N', 'E', '_', 'N', 'U', 'M', 'B', 'E', 'R']
def etAADHAAR : List Char := ['I', 'N', '_', 'A', 'A', 'D', 'H', 'A', 'A', 'R']

def PII_ENTITIES : List (List Char) :=
  [etPERSON, etORGANIZATION, etLOCATION, etEMAIL, etPHONE, etAADHAAR]

def PII_TTL_SECONDS : Nat := 86400

/-! ## TieredStore writes (encoder.py lines 188-193, redis.py 74-85) -/

/-- `RedisService.set_pii_mapping`: a no-op returning `False` (swallowed by
the caller) when there is no client, `setex` otherwise.  `is_connected`
coincides with having a client (`__init__` sets both together). -/
def set_pii_mapping (st : Store) (token encrypted_value : List Char)
    (expiry_seconds : Nat) : Store :=
  if st.redisConnected then
    { st with redisPii := insertR st.redisPii token encrypted_value expiry_seconds }
  else st

/-- `_persist_token`: read-modify-write of `.token_store.json` (best-effort,
exceptions swallowed). -/
def persist_token (st : Store) (token encrypted_val : List Char) : Store :=
  { st with tokenFile := insertA st.tokenFile token encrypted_val }

/-- `get_persisted_token` (encoder.py lines 128-131). -/
def get_persisted_token (st : Store) (token : List Char) : Option (List Char) :=
  lookupA st.tokenFile token

/-- `RedisService.get_pii_mapping`: `None` without a client, keyspace lookup
otherwise. -/
def get_pii_mapping (st : Store) (token : List Char) : Option (List Char) :=
  if st.redisConnected then lookupR st.redisPii token else none

/-- The store write performed for each mapping in `encode_query` (lines
188-193) and `encode_results` (lines 224-228): always write `_token_store`;
then the external tier when connected, else the file tier. -/
def storePut (st : Store) (token encrypted_val : List Char) (ttl : Nat) : Store :=
  let st1 := { st with token_store := insertA st.token_store token encrypted_val }
  if st1.redisConnected then
    { st1 with redisPii := insertR st1.redisPii token encrypted_val ttl }
  else
    { st1 with tokenFile := insertA st1.tokenFile token encrypted_val }

/-! ## TieredStore reads (decoder.py lines 20-29)

The last two components of the result record whether the external tier and
the file tier were consulted, making "no slower-tier access" statable. -/

def storeGet (st : Store) (token : List Char) :
    Option (List Char) × Store × Bool × Bool :=
  let e0 := lookupA st.token_store token
  let redisTouched := !truthy e0 && st.redisConnected
  let e1 := if redisTouched then get_pii_mapping st token else e0
  let st1 :=
    if redisTouched && truthy e1 then
      { st with token_store := insertA st.token_store token (e1.getD []) }
    else st
  let fileTouched := !truthy e1
  let e2 := if fileTouched then get_persisted_token st token else e1
  let st2 :=
    if fileTouched && truthy e2 then
      { st1 with token_store := insertA st1.token_store token (e2.getD []) }
    else st1
  (e2, st2, redisTouched, fileTouched)

/-! ## Decoder (`decode_text`, decoder.py lines 7-38) -/

/-- The token loop of `decode_text`: resolve each distinct found token
through the tiers, decrypt, and textually replace all its occurrences; on a
falsy lookup or a `DecryptionError`, leave the working text unchanged. -/
def decodeLoop : List (List Char) → List Char → Store → List Char × Store
  | [], cur, st => (cur, st)
  | t :: ts, cur, st =>
    let r := storeGet st t
    if truthy r.1 then
      match decrypt_value (r.1.getD []) with
      | some original_val => decodeLoop ts (replaceAll t original_val cur) r.2.1
      | none => decodeLoop ts cur r.2.1
    else decodeLoop ts cur r.2.1

/-- `decode_text(text)`: scan for tokens, deduplicate, resolve and replace
each.  Also returns the updated store (back-filled in-process tier). -/
def decode_text (text : List Char) (st : Store) : List Char × Store :=
  decodeLoop (findAll text).dedup text st

/-! ## Encoder (`encode_query`, encoder.py lines 166-204) -/

structure Mapping where
  token : List Char
  entity_type : List Char
  original_len : Nat
deriving DecidableEq, Repr

/-- Stable sort by `start` descending: `results.sort(key=..., reverse=True)`
(Python's sort is stable, so spans with equal `start` keep input order). -/
def insertDescByStart (x : Span) : List Span → List Span
  | [] => [x]
  | y :: ys => if x.start ≤ y.start then y :: insertDescByStart x ys else x :: y :: ys

def sortByStartDesc (l : List Span) : List Span :=
  l.foldl (fun acc x => insertDescByStart x acc) []

/-- The loop body of `encode_query` for one span `res` (lines 180-202):
sliceStr the original value out of the original `text`, derive the token,
encrypt, commit to the store, substitute in the working text, append the
mapping record. -/
def encodeSpanStep (text : List Char) (acc : List Char × List Mapping × Store)
    (res : Span) : List Char × List Mapping × Store :=
  let original_value := sliceStr text res.start res.stop
  let token := get_token_hash original_value res.entity_type
  let encrypted_val := encrypt_value original_value
  let st2 := storePut acc.2.2 token encrypted_val PII_TTL_SECONDS
  (acc.1.take res.start ++ token ++ acc.1.drop res.stop,
   acc.2.1 ++ [⟨token, res.entity_type, res.stop - res.start⟩], st2)

/-- `encode_query(text)` with the result of its `detect_pii(text)` call
passed in as `detected` (detection is an external capability, spec
section 1). -/
def encode_query (detected : List Span) (text : List Char) (st : Store) :
    List Char × List Mapping × Store :=
  (sortByStartDesc detected).foldl (encodeSpanStep text) (text, [], st)

/-! ## Tabular entry points (`encode_results`, `decode_results`) -/

/-- A result cell: SQL values are strings or non-string values; only the
string/non-string distinction matters (`isinstance(val, str)`), so the
non-string payload is represented by an integer. -/
inductive Cell where
  | str (s : List Char)
  | other (v : Int)
deriving DecidableEq, Repr

/-- The per-cell work of `encode_results` (lines 213-234). -/
def encodeCell (det : List Char → List Span) (st : Store) (val : Cell) :
    Cell × Store :=
  match val with
  | .str s =>
    let entities := det s
    if entities.isEmpty then (.str s, st)
    else
      let r := (sortByStartDesc entities).foldl
        (fun (acc : List Char × Store) ent =>
          let ov := sliceStr s ent.start ent.stop
          let token := get_token_hash ov ent.entity_type
          let encrypted_val := encrypt_value ov
          (acc.1.take ent.start ++ token ++ acc.1.drop ent.stop,
           storePut acc.2 token encrypted_val PII_TTL_SECONDS)) (s, st)
      (.str r.1, r.2)
  | c => (c, st)

def encodeRow (det : List Char → List Span) :
    List Cell → Store → List Cell × Store
  | [], st => ([], st)
  | c :: cs, st =>
    let r := encodeCell det st c
    let rest := encodeRow det cs r.2
    (r.1 :: rest.1, rest.2)

/-- `encode_results(columns, rows)` (encoder.py lines 206-236); `columns`
is accepted and ignored exactly as in the source. -/
def encode_results (det : List Char → List Span) (columns : List (List Char))
    (rows : List (List Cell)) (st : Store) : List (List Cell) × Store :=
  match rows with
  | [] => ([], st)
  | row :: rest =>
    let r := encodeRow det row st
    let rs := encode_results det columns rest r.2
    (r.1 :: rs.1, rs.2)

/-- Decode one row of cells (`decode_text` on string cells only). -/
def decodeRow : List Cell → Store → List Cell × Store
  | [], st => ([], st)
  | .str s :: cs, st =>
    let r := decode_text s st
    let rest := decodeRow cs r.2
    (.str r.1 :: rest.1, rest.2)
  | c :: cs, st =>
    let rest := decodeRow cs st
    (c :: rest.1, rest.2)

def decodeRows : List (List Cell) → Store → List (List Cell) × Store
  | [], st => ([], st)
  | row :: rest, st =>
    let r := decodeRow row st
    let rs := decodeRows rest r.2
    (r.1 :: rs.1, rs.2)

/-- Decode one record (dict row) of a list-of-dicts result. -/
def decodeRecord : List (List Char × Cell) → Store → List (List Char × Cell) × Store
  | [], st => ([], st)
  | (k, .str s) :: kvs, st =>
    let r := decode_text s st
    let rest := decodeRecord kvs r.2
    ((k, .str r.1) :: rest.1, rest.2)
  | kv :: kvs, st =>
    let rest := decodeRecord kvs st
    (kv :: rest.1, rest.2)

def decodeRecords : List (List (List Char × Cell)) → Store → List (List (List Char × Cell)) × Store
  | [], st => ([], st)
  | item :: items, st =>
    let r := decodeRecord item st
    let rest := decodeRecords items r.2
    (r.1 :: rest.1, rest.2)

/-- The run-time shapes `decode_results` distinguishes by `isinstance`
checks: `None`, a dict with a `rows` key (columns and `row_count` carried
along unchanged), a non-empty list of dicts, a non-empty list of lists. -/
inductive ResultVal where
  | null
  | tabular (columns : List (List Char)) (rows : List (List Cell)) (row_count : Int)
  | records (items : List (List (List Char × Cell)))
  | rowList (rows : List (List Cell))
deriving DecidableEq, Repr

/-- `decode_results(result)` (decoder.py lines 41-88). -/
def decode_results (result : ResultVal) (st : Store) : ResultVal × Store :=
  match result with
  | .null => (.null, st)
  | .tabular columns rows row_count =>
    let r := decodeRows rows st
    (.tabular columns r.1 row_count, r.2)
  | .records items =>
    let r := decodeRecords items st
    (.records r.1, r.2)
  | .rowList rows =>
    let r := decodeRows rows st
    (.rowList r.1, r.2)

/-- Frame relation between an input cell and the corresponding output
cell: a non-string cell passes through unchanged; a string cell may only
be rewritten to another string. -/
def cellFrame : Cell → Cell → Prop
  | .other v, c => c = .other v
  | .str _, c => ∃ s, c = .str s

/-- Frame relation for dict-row entries: the key is unchanged and the
value respects `cellFrame`. -/
def recFrame (a b : List Char × Cell) : Prop :=
  b.1 = a.1 ∧ cellFrame a.2 b.2

/-! ## Detector strategy selection (encoder.py lines 25-72, 133-157)

The Presidio `AnalyzerEngine` is an external capability; a model-backed
analyzer is a function from text to either a raised error or a span list.
The lazily initialized module global `_analyzer` is the `Option
AnalyzerKind` state; the outcome of the engine-construction attempt
(lines 29-71) is the `init` parameter. -/

inductive AnalyzerKind where
  | engine (analyze : List Char → Except Unit (List Span))
  | fallback

/-- `get_analyzer()`: return the cached strategy, otherwise construct one;
a failing construction caches the permanent `"fallback"` marker. -/
def get_analyzer (init : Except Unit (List Char → Except Unit (List Span)))
    (st : Option AnalyzerKind) : AnalyzerKind × Option AnalyzerKind :=
  match st with
  | some a => (a, st)
  | none =>
    match init with
    | .ok m => (.engine m, some (.engine m))
    | .error _ => (.fallback, some .fallback)

/-! ## The pattern-based fallback (`_regex_detect_pii`, lines 74-94)

A small backtracking regular-expression engine replicating the leftmost /
greedy semantics of `re.finditer` for the five patterns used.  `runRE`
returns the candidate continuations in backtracking priority order; the
head of the list is the match `re` would produce. -/

inductive RE where
  | cls (p : Char → Bool)
  | seq (a b : RE)
  | alt (a b : RE)
  | opt (r : RE)
  | rep (r : RE) (min : Nat)
  | cnt (r : RE) (n : Nat)
  | bnd
  | lit (s : List Char)

def isWordChar (c : Char) : Bool :=
  (48 ≤ c.toNat && c.toNat ≤ 57) || (65 ≤ c.toNat && c.toNat ≤ 90) ||
    (97 ≤ c.toNat && c.toNat ≤ 122) || c.toNat == 95

def isWordB : Option Char → Bool
  | none => false
  | some c => isWordChar c

def isWordHead : List Char → Bool
  | [] => false
  | c :: _ => isWordChar c

/-- `n` mandatory repetitions of a matcher. -/
def repRun (one : Option Char → List Char → List (Option Char × List Char)) :
    Nat → Option Char → List Char → List (Option Char × List Char)
  | 0, pv, s => [(pv, s)]
  | n + 1, pv, s => (one pv s).flatMap fun x => repRun one n x.1 x.2

/-- Greedy unbounded repetition (more iterations first); the fuel bounds
the iteration count and is always supplied as at least the remaining input
length plus one, which is enough because every repeated sub-pattern of the
five detector regexes consumes at least one character. -/
def starRun (one : Option Char → List Char → List (Option Char × List Char)) :
    Nat → Option Char → List Char → List (Option Char × List Char)
  | 0, pv, s => [(pv, s)]
  | f + 1, pv, s =>
    ((one pv s).flatMap fun x => starRun one f x.1 x.2) ++ [(pv, s)]

/-- All ways to match `re` at the head of `s`, in backtracking priority
order, each as (last character consumed so far, remaining input).  `pv` is
the character immediately before `s` (for `\b`). -/
def runRE : RE → Option Char → List Char → List (Option Char × List Char)
  | .cls p, _, s =>
    match s with
    | [] => []
    | c :: r => if p c then [(some c, r)] else []
  | .seq a b, pv, s => (runRE a pv s).flatMap fun x => runRE b x.1 x.2
  | .alt a b, pv, s => runRE a pv s ++ runRE b pv s
  | .opt r, pv, s => runRE r pv s ++ [(pv, s)]
  | .rep r n, pv, s =>
    (repRun (runRE r) n pv s).flatMap fun x => starRun (runRE r) (x.2.length + 1) x.1 x.2
  | .cnt r n, pv, s => repRun (runRE r) n pv s
  | .bnd, pv, s => if isWordB pv != isWordHead s then [(pv, s)] else []
  | .lit l, pv, s =>
    if l.isPrefixOf s then [((l.getLast?).orElse (fun _ => pv), s.drop l.length)] else []

/-- Length of the match `re.match` would produce at the head of `s`, if
any. -/
def tryMatch (re : RE) (pv : Option Char) (s : List Char) : Option Nat :=
  match runRE re pv s with
  | [] => none
  | x :: _ => some (s.length - x.2.length)

/-- `re.finditer`: leftmost non-overlapping matches as (start, end) pairs;
a zero-width match is emitted and scanning resumes one character later. -/
def finditerGo (re : RE) : Nat → Nat → Option Char → List Char → List (Nat × Nat)
  | 0, _, _, _ => []
  | f + 1, pos, pv, s =>
    match tryMatch re pv s with
    | some len =>
      if len = 0 then
        (pos, pos) ::
          (match s with
           | [] => []
           | c :: rest => finditerGo re f (pos + 1) (some c) rest)
      else
        (pos, pos + len) ::
          finditerGo re f (pos + len) (((s.take len).getLast?).orElse (fun _ => pv)) (s.drop len)
    | none =>
      match s with
      | [] => []
      | c :: rest => finditerGo re f (pos + 1) (some c) rest

def finditer (re : RE) (s : List Char) : List (Nat × Nat) :=
  finditerGo re (s.length + 1) 0 none s

def isDigitC (c : Char) : Bool := 48 ≤ c.toNat && c.toNat ≤ 57
def isSpaceC (c : Char) : Bool :=
  c.toNat == 32 || c.toNat == 9 || c.toNat == 10 || c.toNat == 13 || c.toNat == 12 || c.toNat == 11
def isLowerC (c : Char) : Bool := 97 ≤ c.toNat && c.toNat ≤ 122
def isUpperC (c : Char) : Bool := 65 ≤ c.toNat && c.toNat ≤ 90
def isAlphaC (c : Char) : Bool := isLowerC c || isUpperC c

/-- `[a-zA-Z0-9._%+-]` (email local part). -/
def emailLocalC (c : Char) : Bool :=
  isAlphaC c || isDigitC c || c.toNat == 46 || c.toNat == 95 || c.toNat == 37 ||
    c.toNat == 43 || c.toNat == 45

/-- `[a-zA-Z0-9.-]` (email domain). -/
def emailDomC (c : Char) : Bool := isAlphaC c || isDigitC c || c.toNat == 46 || c.toNat == 45

/-- `[A-Za-z&.'-]` (organization word tail). -/
def orgC (c : Char) : Bool :=
  isAlphaC c || c.toNat == 38 || c.toNat == 46 || c.toNat == 39 || c.toNat == 45

/-- `\+?[\d\s-]{10,}` -/
def rePhone : RE :=
  .seq (.opt (.cls (fun c => c.toNat == 43)))
    (.rep (.cls (fun c => isDigitC c || isSpaceC c || c.toNat == 45)) 10)

/-- `[a-zA-Z0-9._%+-]+@[a-zA-Z0-9.-]+\.[a-zA-Z]{2,}` -/
def reEmail : RE :=
  .seq (.rep (.cls emailLocalC) 1)
    (.seq (.cls (fun c => c.toNat == 64))
      (.seq (.rep (.cls emailDomC) 1)
        (.seq (.cls (fun c => c.toNat == 46)) (.rep (.cls isAlphaC) 2))))

/-- `\b[A-Z][a-z]+ [A-Z][a-z]+\b` -/
def rePerson : RE :=
  .seq .bnd
    (.seq (.cls isUpperC)
      (.seq (.rep (.cls isLowerC) 1)
        (.seq (.lit [Char.ofNat 32])
          (.seq (.cls isUpperC) (.seq (.rep (.cls isLowerC) 1) .bnd)))))

def orgSuffixAlt : RE :=
  .alt (.lit ['G', 'r', 'o', 'u', 'p'])
    (.alt (.lit ['L', 't', 'd'])
      (.alt (.lit ['L', 'i', 'm', 'i', 't', 'e', 'd'])
        (.alt (.lit ['L', 'L', 'C'])
          (.alt (.lit ['I', 'n', 'c'])
            (.alt (.lit ['C', 'o', 'r', 'p'])
              (.alt (.lit ['C', 'o', 'r', 'p', 'o', 'r', 'a', 't', 'i', 'o', 'n'])
                (.alt (.lit ['C', 'o', 'm', 'p', 'a', 'n', 'y'])
                  (.alt (.lit ['C', 'o', '.'])
                    (.alt (.lit ['T', 'e', 'c', 'h', 'n', 'o', 'l', 'o', 'g', 'i', 'e', 's'])
                      (.alt (.lit ['S', 'o', 'l', 'u', 't', 'i', 'o', 'n', 's'])
                        (.alt (.lit ['S', 'y', 's', 't', 'e', 'm', 's'])
                          (.lit ['E', 'n', 't', 'e', 'r', 'p', 'r', 'i', 's', 'e', 's']))))))))))))

/-- The org-suffix pattern of `_regex_detect_pii` (also used as the extra
recognizer in `get_analyzer`). -/
def reOrg : RE :=
  .seq .bnd
    (.seq (.cls isUpperC)
      (.seq (.rep (.cls orgC) 1)
        (.seq (.rep (.seq (.rep (.cls isSpaceC) 1) (.seq (.cls isUpperC) (.rep (.cls orgC) 1))) 0)
          (.seq (.rep (.cls isSpaceC) 1) (.seq orgSuffixAlt .bnd)))))

/-- `\b\d{4}\s?\d{4}\s?\d{4}\b` -/
def reAadhaar : RE :=
  .seq .bnd
    (.seq (.cnt (.cls isDigitC) 4)
      (.seq (.opt (.cls isSpaceC))
        (.seq (.cnt (.cls isDigitC) 4)
          (.seq (.opt (.cls isSpaceC)) (.seq (.cnt (.cls isDigitC) 4) .bnd)))))

/-- The `patterns` dict of `_regex_detect_pii`, in insertion order. -/
def piiPatterns : List (List Char × RE) :=
  [(etPHONE, rePhone), (etEMAIL, reEmail), (etPERSON, rePerson),
   (etORGANIZATION, reOrg), (etAADHAAR, reAadhaar)]

/-- `_regex_detect_pii(text)` (encoder.py lines 74-94): every pattern's
`finditer` matches, in pattern order; the fixed 0.5 score is advisory and
omitted. -/
def regex_detect_pii (text : List Char) : List Span :=
  piiPatterns.flatMap fun p => (finditer p.2 text).map fun m => ⟨p.1, m.1, m.2⟩

/-- `detect_pii(text)` (encoder.py lines 133-157): use the cached or newly
selected strategy; an analysis-time error falls back to the pattern
detector for this call only. -/
def detect_pii (init : Except Unit (List Char → Except Unit (List Span)))
    (st : Option AnalyzerKind) (text : List Char) :
    List Span × Option AnalyzerKind :=
  let r := get_analyzer init st
  match r.1 with
  | .fallback => (regex_detect_pii text, r.2)
  | .engine m =>
    match m text with
    | .ok results => (results, r.2)
    | .error _ => (regex_detect_pii text, r.2)

/-! ## Structural lemmas about the token grammar -/

theorem mkTok_length (T H : List Char) : (mkTok T H).length = T.length + H.length + 3 := by
  simp [mkTok]
  omega

theorem mkTok_getElem (T H : List Char) (i : Nat) :
    (mkTok T H)[i]? =
      if i = 0 then some '[' else
      if i ≤ T.length then T[i - 1]? else
      if i = T.length + 1 then some '_' else
      if i ≤ T.length + H.length + 1 then H[i - T.length - 2]? else
      if i = T.length + H.length + 2 then some ']' else none := by
  unfold mkTok
  rcases i with _ | j
  · simp
  · simp only [List.getElem?_cons, List.getElem?_append, List.getElem?_nil,
      if_neg (Nat.succ_ne_zero j), Nat.add_sub_cancel]
    split_ifs <;> first
      | rfl
      | omega
      | (congr 1; omega)

theorem isTokBodyChar_ne_lb {c : Char} (h : isTokBodyChar c = true) : c ≠ '[' := by
  intro he; subst he; simp [isTokBodyChar, isUpperAZ] at h

theorem isTokBodyChar_ne_rb {c : Char} (h : isTokBodyChar c = true) : c ≠ ']' := by
  intro he; subst he; simp [isTokBodyChar, isUpperAZ] at h

theorem isHexUpChar_ne_lb {c : Char} (h : isHexUpChar c = true) : c ≠ '[' := by
  intro he; subst he; simp [isHexUpChar] at h

theorem isHexUpChar_ne_rb {c : Char} (h : isHexUpChar c = true) : c ≠ ']' := by
  intro he; subst he; simp [isHexUpChar] at h

theorem isHexUpChar_ne_us {c : Char} (h : isHexUpChar c = true) : c ≠ '_' := by
  intro he; subst he; simp [isHexUpChar] at h

theorem IsToken.length_ge {tk : List Char} (h : IsToken tk) : 12 ≤ tk.length := by
  obtain ⟨T, H, rfl, hT, _, hH, _⟩ := h
  rw [mkTok_length]
  have : 1 ≤ T.length := List.length_pos.mpr hT
  omega

theorem IsToken.head_lb {tk : List Char} (h : IsToken tk) : tk[0]? = some '[' := by
  obtain ⟨T, H, rfl, _, _, _, _⟩ := h
  rw [mkTok_getElem]
  simp

theorem IsToken.no_lb {tk : List Char} (h : IsToken tk) {i : Nat} (hi : 0 < i) :
    tk[i]? ≠ some '[' := by
  obtain ⟨T, H, rfl, hT, hTc, hH, hHc⟩ := h
  rw [mkTok_getElem]
  rw [if_neg (by omega)]
  by_cases h1 : i ≤ T.length
  · rw [if_pos h1]
    intro hc
    have hmem : '[' ∈ T := by
      rcases List.getElem?_eq_some.mp hc with ⟨hlt, hg⟩
      exact hg ▸ List.getElem_mem hlt
    exact isTokBodyChar_ne_lb (hTc _ hmem) rfl
  · rw [if_neg h1]
    by_cases h2 : i = T.length + 1
    · rw [if_pos h2]; intro hc; cases hc
    · rw [if_neg h2]
      by_cases h3 : i ≤ T.length + H.length + 1
      · rw [if_pos h3]
        intro hc
        have hmem : '[' ∈ H := by
          rcases List.getElem?_eq_some.mp hc with ⟨hlt, hg⟩
          exact hg ▸ List.getElem_mem hlt
        exact isHexUpChar_ne_lb (hHc _ hmem) rfl
      · rw [if_neg h3]
        by_cases h4 : i = T.length + H.length + 2
        · rw [if_pos h4]; intro hc; cases hc
        · rw [if_neg h4]; intro hc; cases hc

theorem IsToken.rb_iff {tk : List Char} (h : IsToken tk) (i : Nat) :
    tk[i]? = some ']' ↔ i = tk.length - 1 := by
  obtain ⟨T, H, rfl, hT, hTc, hH, hHc⟩ := h
  rw [mkTok_getElem, mkTok_length]
  constructor
  · intro hc
    by_cases h0 : i = 0
    · rw [if_pos h0] at hc; cases hc
    rw [if_neg h0] at hc
    by_cases h1 : i ≤ T.length
    · rw [if_pos h1] at hc
      have hmem : ']' ∈ T := by
        rcases List.getElem?_eq_some.mp hc with ⟨hlt, hg⟩
        exact hg ▸ List.getElem_mem hlt
      exact absurd rfl (isTokBodyChar_ne_rb (hTc _ hmem))
    rw [if_neg h1] at hc
    by_cases h2 : i = T.length + 1
    · rw [if_pos h2] at hc; cases hc
    rw [if_neg h2] at hc
    by_cases h3 : i ≤ T.length + H.length + 1
    · rw [if_pos h3] at hc
      have hmem : ']' ∈ H := by
        rcases List.getElem?_eq_some.mp hc with ⟨hlt, hg⟩
        exact hg ▸ List.getElem_mem hlt
      exact absurd rfl (isHexUpChar_ne_rb (hHc _ hmem))
    rw [if_neg h3] at hc
    by_cases h4 : i = T.length + H.length + 2
    · omega
    · rw [if_neg h4] at hc; cases hc
  · intro hi
    rw [if_neg (by omega), if_neg (by omega), if_neg (by omega), if_neg (by omega),
      if_pos (by omega)]

/-- Two valid tokens cannot overlap at the same start: a token that is a
prefix of a token-headed string is that token. -/
theorem tok_prefix_tok {t t' r : List Char} (ht : IsToken t) (ht' : IsToken t')
    (hp : t <+: (t' ++ r)) : t = t' := by
  have htake := List.prefix_iff_eq_take.mp hp
  have hget : ∀ i, i < t.length → t[i]? = (t' ++ r)[i]? := by
    intro i hi
    rw [htake, List.getElem?_take, if_pos hi]
  have hrb : t[t.length - 1]? = some ']' := (ht.rb_iff _).mpr rfl
  have h12 := ht.length_ge
  have h12' := ht'.length_ge
  rcases Nat.lt_or_ge (t.length - 1) t'.length with hlt | hge
  · have : (t' ++ r)[t.length - 1]? = t'[t.length - 1]? := List.getElem?_append_left hlt
    have hrb' : t'[t.length - 1]? = some ']' := by
      rw [← this, ← hget _ (by omega)]; exact hrb
    have := (ht'.rb_iff _).mp hrb'
    have hlen : t.length = t'.length := by omega
    rw [htake, hlen, List.take_left]
  · -- then t'.length - 1 < t.length: the closing bracket of t' sits inside t
    have hj : t'.length - 1 < t.length := by omega
    have : t[t'.length - 1]? = t'[t'.length - 1]? := by
      rw [hget _ hj, List.getElem?_append_left (by omega)]
    have hrb' : t[t'.length - 1]? = some ']' := by
      rw [this]; exact (ht'.rb_iff _).mpr rfl
    have := (ht.rb_iff _).mp hrb'
    have hlen : t.length = t'.length := by omega
    rw [htake, hlen, List.take_left]

/-! ## Soundness, completeness and uniqueness of the greedy token matcher -/

/-- Elements of `l` below the `takeWhile` length satisfy the predicate. -/
theorem getElem_lt_takeWhile {p : Char → Bool} {l : List Char} {i : Nat}
    (hi : i < (l.takeWhile p).length) {c : Char} (hc : l[i]? = some c) :
    p c = true := by
  obtain ⟨u, hu⟩ := (List.takeWhile_prefix p (l := l))
  have : (l.takeWhile p)[i]? = some c := by
    rw [← hu, List.getElem?_append_left hi] at hc
    exact hc
  rcases List.getElem?_eq_some.mp this with ⟨hlt, hg⟩
  exact List.mem_takeWhile_imp (hg ▸ List.getElem_mem hlt)

theorem take_all_of_takeWhile {p : Char → Bool} {l : List Char} {n : Nat}
    (hn : n ≤ (l.takeWhile p).length) : ∀ c ∈ l.take n, p c = true := by
  intro c hc
  obtain ⟨u, hu⟩ := List.takeWhile_prefix p (l := l)
  rw [← hu, List.take_append_of_le_length hn] at hc
  exact List.mem_takeWhile_imp (List.take_subset n _ hc)

/-- All-satisfying prefix bounds the `takeWhile` length from below. -/
theorem takeWhile_length_ge {p : Char → Bool} {T u : List Char}
    (h : ∀ c ∈ T, p c = true) : T.length ≤ ((T ++ u).takeWhile p).length := by
  induction T with
  | nil => simp
  | cons c T ih =>
    have hc := h c (List.mem_cons_self c T)
    rw [List.cons_append, List.takeWhile_cons, if_pos hc]
    simp only [List.length_cons]
    exact Nat.succ_le_succ (ih fun d hd => h d (List.mem_cons_of_mem c hd))

/-- Structural characterization of `tailMatch`. -/
theorem tailMatch_iff {l : List Char} :
    tailMatch l = true ↔
      ∃ H r, l = '_' :: (H ++ ']' :: r) ∧ H.length = 8 ∧
        ∀ c ∈ H, isHexUpChar c = true := by
  constructor
  · intro h
    cases l with
    | nil => simp [tailMatch] at h
    | cons c t =>
      simp only [tailMatch, Bool.and_eq_true, beq_iff_eq] at h
      obtain ⟨hc, hall, hhd⟩ := h
      obtain ⟨ys, hys⟩ := List.head?_eq_some_iff.mp hhd
      have hlen : 8 < t.length := by
        by_contra hle
        rw [List.drop_eq_nil_of_le (by omega)] at hys
        cases hys
      refine ⟨t.take 8, ys, ?_, ?_, List.all_eq_true.mp hall⟩
      · subst hc
        congr 1
        conv_lhs => rw [← List.take_append_drop 8 t]
        rw [hys]
      · simp [List.length_take]
        omega
  · rintro ⟨H, r, rfl, hH, hHc⟩
    simp only [tailMatch, Bool.and_eq_true, beq_iff_eq]
    refine ⟨trivial, ?_, ?_⟩
    · rw [← hH, List.take_left]
      exact List.all_eq_true.mpr hHc
    · rw [← hH, List.drop_left]
      simp

/-- Index-level consequences of a `tailMatch` at offset `ℓ`. -/
theorem tailMatch_facts {rest : List Char} {ℓ : Nat}
    (h : tailMatch (rest.drop ℓ) = true) :
    rest[ℓ]? = some '_' ∧
      (∀ k, 1 ≤ k → k ≤ 8 → ∃ c, rest[ℓ + k]? = some c ∧ isHexUpChar c = true) ∧
      rest[ℓ + 9]? = some ']' := by
  obtain ⟨H, r, hd, hH, hHc⟩ := tailMatch_iff.mp h
  refine ⟨?_, ?_, ?_⟩
  · rw [← List.head?_drop, hd]
    rfl
  · intro k h1 h8
    have hk : rest[ℓ + k]? = H[k - 1]? := by
      rw [← List.getElem?_drop, hd, List.getElem?_cons, if_neg (by omega),
        List.getElem?_append_left (by omega)]
    have hlt : k - 1 < H.length := by omega
    refine ⟨H[k - 1], ?_, hHc _ (List.getElem_mem hlt)⟩
    rw [hk]
    exact List.getElem?_eq_getElem hlt
  · rw [← List.getElem?_drop, hd, List.getElem?_cons, if_neg (by omega),
      List.getElem?_append_right (by omega)]
    rw [show (9 : Nat) - 1 - H.length = 0 from by omega]
    simp

/-- The split point of a token parse is unique: at most one `[A-Z_]+`
length is compatible with `_[0-9A-F]{8}\]` following it. -/
theorem parse_unique {rest : List Char} {ℓ₁ ℓ₂ : Nat}
    (hr₁ : ℓ₁ ≤ (rest.takeWhile isTokBodyChar).length)
    (hr₂ : ℓ₂ ≤ (rest.takeWhile isTokBodyChar).length)
    (h₁ : tailMatch (rest.drop ℓ₁) = true)
    (h₂ : tailMatch (rest.drop ℓ₂) = true) : ℓ₁ = ℓ₂ := by
  have aux : ∀ a b : Nat, a < b → b ≤ (rest.takeWhile isTokBodyChar).length →
      tailMatch (rest.drop a) = true → tailMatch (rest.drop b) = true → False := by
    intro a b hab hbr ha hb
    obtain ⟨hua, hhexa, hrba⟩ := tailMatch_facts ha
    obtain ⟨hub, _, _⟩ := tailMatch_facts hb
    by_cases hc : b ≤ a + 8
    · obtain ⟨c, hgc, hhc⟩ := hhexa (b - a) (by omega) (by omega)
      rw [show a + (b - a) = b by omega, hub] at hgc
      exact isHexUpChar_ne_us hhc (Option.some.inj hgc).symm
    · by_cases hc9 : b = a + 9
      · rw [hc9, hrba] at hub
        exact absurd (Option.some.inj hub) (by decide)
      · have := getElem_lt_takeWhile (p := isTokBodyChar) (l := rest) (i := a + 9) (by omega) hrba
        simp [isTokBodyChar, isUpperAZ] at this
  rcases Nat.lt_trichotomy ℓ₁ ℓ₂ with h | h | h
  · exact absurd (aux _ _ h hr₂ h₁ h₂) not_false
  · exact h
  · exact absurd (aux _ _ h hr₁ h₂ h₁) not_false

/-- Soundness of the matcher: a successful match means the input starts
with a grammar token of the reported length. -/
theorem matchLen_sound {s : List Char} {ℓ : Nat} (h : matchLen s = some ℓ) :
    ∃ T H r, s = mkTok T H ++ r ∧ T.length = ℓ ∧ T ≠ [] ∧
      (∀ c ∈ T, isTokBodyChar c = true) ∧ H.length = 8 ∧
      (∀ c ∈ H, isHexUpChar c = true) := by
  cases s with
  | nil => exact absurd h (by simp [matchLen])
  | cons c rest =>
    simp only [matchLen] at h
    split_ifs at h with hc
    · subst hc
      have hp := List.find?_some h
      have hm := List.mem_of_find?_eq_some h
      obtain ⟨i, hi, rfl⟩ := List.mem_map.mp hm
      have hiR := List.mem_range.mp hi
      obtain ⟨H, r, hd, hH, hHc⟩ := tailMatch_iff.mp hp
      have hlen : i + 1 ≤ rest.length := by
        have := (List.takeWhile_prefix isTokBodyChar (l := rest)).length_le
        omega
      have hsplit : rest = rest.take (i + 1) ++ ('_' :: (H ++ ']' :: r)) := by
        conv_lhs => rw [← List.take_append_drop (i + 1) rest]
        rw [hd]
      refine ⟨rest.take (i + 1), H, r, ?_, ?_, ?_, ?_, hH, hHc⟩
      · conv_lhs => rw [hsplit]
        simp [mkTok, List.append_assoc]
      · rw [List.length_take]
        omega
      · apply List.ne_nil_of_length_pos
        rw [List.length_take]
        omega
      · exact take_all_of_takeWhile (by omega)

/-- Completeness of the matcher: at a grammar token the matcher succeeds
and reports exactly that token's `[A-Z_]+` length. -/
theorem matchLen_complete {T H r : List Char} (hT : T ≠ [])
    (hTc : ∀ c ∈ T, isTokBodyChar c = true) (hH : H.length = 8)
    (hHc : ∀ c ∈ H, isHexUpChar c = true) :
    matchLen (mkTok T H ++ r) = some T.length := by
  have hmk : mkTok T H ++ r = '[' :: (T ++ '_' :: (H ++ ']' :: r)) := by
    simp [mkTok]
  rw [hmk]
  simp only [matchLen, if_pos rfl]
  have hTpos : 1 ≤ T.length := List.length_pos.mpr hT
  set u := T ++ '_' :: (H ++ ']' :: r) with hu
  have hrun : T.length ≤ (u.takeWhile isTokBodyChar).length := takeWhile_length_ge hTc
  have htm : tailMatch (u.drop T.length) = true := by
    rw [hu, List.drop_left]
    exact tailMatch_iff.mpr ⟨H, r, rfl, hH, hHc⟩
  have hmem : T.length ∈ (List.range (u.takeWhile isTokBodyChar).length).map (· + 1) :=
    List.mem_map.mpr ⟨T.length - 1, List.mem_range.mpr (by omega),
      by show T.length - 1 + 1 = T.length; omega⟩
  have hsome : (((List.range (u.takeWhile isTokBodyChar).length).map (· + 1)).find?
      (fun ℓ => tailMatch (u.drop ℓ))).isSome = true :=
    List.find?_isSome.mpr ⟨T.length, hmem, htm⟩
  obtain ⟨a, ha⟩ := Option.isSome_iff_exists.mp hsome
  have hpa := List.find?_some ha
  have hma := List.mem_of_find?_eq_some ha
  obtain ⟨j, hj, rfl⟩ := List.mem_map.mp hma
  have hje := parse_unique
    (by have := List.mem_range.mp hj; omega) hrun hpa htm
  rw [ha, hje]
  simp

/-! ## Fuel irrelevance and stepping lemmas for `replaceAll` -/

theorem replaceAllGo_fuel {t v : List Char} :
    ∀ f₁ f₂ s, s.length ≤ f₁ → s.length ≤ f₂ →
      replaceAllGo t v f₁ s = replaceAllGo t v f₂ s := by
  intro f₁
  induction f₁ with
  | zero =>
    intro f₂ s h1 _
    have hs : s = [] := List.eq_nil_of_length_eq_zero (by omega)
    subst hs
    cases f₂ <;> rfl
  | succ f ih =>
    intro f₂ s h1 h2
    cases s with
    | nil => cases f₂ <;> rfl
    | cons c rest =>
      cases f₂ with
      | zero => simp at h2
      | succ g =>
        simp only [List.length_cons] at h1 h2
        simp only [replaceAllGo]
        split_ifs with hp
        · have hlt : 1 ≤ t.length := List.length_pos.mpr hp.1
          congr 1
          apply ih
          · rw [List.length_drop]
            simp only [List.length_cons]
            omega
          · rw [List.length_drop]
            simp only [List.length_cons]
            omega
        · congr 1
          exact ih _ _ (by omega) (by omega)

theorem replaceAll_eq_go {t v : List Char} {f : Nat} {s : List Char}
    (h : s.length ≤ f) : replaceAll t v s = replaceAllGo t v f s :=
  replaceAllGo_fuel _ _ _ (le_refl _) h

theorem replaceAll_nil {t v : List Char} : replaceAll t v [] = [] := rfl

/-- `str.replace` substitutes at an occurrence sitting at the head. -/
theorem replaceAll_head {t v s : List Char} (ht : t ≠ []) (hp : t <+: s) :
    replaceAll t v s = v ++ replaceAll t v (s.drop t.length) := by
  have hlt : 1 ≤ t.length := List.length_pos.mpr ht
  cases s with
  | nil =>
    obtain ⟨r, hr⟩ := hp
    exact absurd (List.append_eq_nil.mp hr).1 ht
  | cons c rest =>
    show replaceAllGo t v (rest.length + 1) (c :: rest) = _
    simp only [replaceAllGo]
    rw [if_pos ⟨ht, List.isPrefixOf_iff_prefix.mpr hp⟩]
    congr 1
    refine (replaceAll_eq_go ?_).symm
    rw [List.length_drop]
    simp only [List.length_cons]
    omega

/-- `str.replace` walks over a region in which no occurrence starts. -/
theorem replaceAll_append_no_occ {t v : List Char} :
    ∀ {c r : List Char}, (∀ p, p < c.length → ¬ t <+: (c ++ r).drop p) →
      replaceAll t v (c ++ r) = c ++ replaceAll t v r := by
  intro c
  induction c with
  | nil => simp
  | cons ch c' ih =>
    intro r h
    have h0 := h 0 (by simp)
    simp only [List.drop_zero] at h0
    have hstep : replaceAll t v (ch :: (c' ++ r)) = ch :: replaceAll t v (c' ++ r) := by
      show replaceAllGo t v ((c' ++ r).length + 1) (ch :: (c' ++ r)) = _
      simp only [replaceAllGo]
      rw [if_neg fun hcon =>
        h0 (by simpa using List.isPrefixOf_iff_prefix.mp hcon.2)]
      rfl
    simp only [List.cons_append]
    rw [hstep, ih fun p hp => by
      have := h (p + 1) (by simp; omega)
      simpa using this]

/-- `str.replace` is the identity when the pattern occurs nowhere. -/
theorem replaceAll_no_occ {t v s : List Char}
    (h : ∀ p, ¬ t <+: s.drop p) : replaceAll t v s = s := by
  have := replaceAll_append_no_occ (t := t) (v := v) (c := s) (r := [])
    (fun p _ => by simpa using h p)
  simpa [replaceAll_nil] using this

/-! ## Where tokens can occur -/

theorem noTokSub_infix {s u : List Char} (h : NoTokSub s) (hinf : u <:+: s) :
    NoTokSub u := by
  intro a tk b hdecomp htk
  obtain ⟨l, r, hlr⟩ := hinf
  refine h (l ++ a) tk (b ++ r) ?_ htk
  rw [← hlr, hdecomp]
  simp [List.append_assoc]

theorem noTokSub_drop {s : List Char} (h : NoTokSub s) (a : Nat) :
    NoTokSub (s.drop a) := noTokSub_infix h (List.drop_suffix a s).isInfix

theorem noTokSub_sliceStr {s : List Char} (h : NoTokSub s) (a b : Nat) :
    NoTokSub (sliceStr s a b) :=
  noTokSub_infix h (((List.take_prefix _ _).isInfix).trans (List.drop_suffix a s).isInfix)

/-- A grammar token does not occur anywhere in a token-free string. -/
theorem no_tok_occ {s t : List Char} (h : NoTokSub s) (ht : IsToken t) :
    ∀ p, ¬ t <+: s.drop p := by
  intro p hp
  obtain ⟨r, hr⟩ := hp
  refine h (s.take p) t r ?_ ht
  rw [List.append_assoc, hr, List.take_append_drop]

theorem IsPrefix_getElem {t l : List Char} (h : t <+: l) {i : Nat}
    (hi : i < t.length) : t[i]? = l[i]? := by
  rw [List.prefix_iff_eq_take.mp h, List.getElem?_take, if_pos hi]

/-- No token occurrence can start inside a token-free chunk when the chunk
is followed by nothing or by an opening bracket: the occurrence would have
to contain a `[` at a non-initial position. -/
theorem no_occ_in_chunk {t c r : List Char} (ht : IsToken t) (hc : NoTokSub c)
    (hr : r = [] ∨ r[0]? = some '[') :
    ∀ p, p < c.length → ¬ t <+: (c ++ r).drop p := by
  intro p hp hpre
  by_cases hin : p + t.length ≤ c.length
  · have hdp : (c ++ r).drop p = c.drop p ++ r := List.drop_append_of_le_length (by omega)
    rw [hdp] at hpre
    have htk : t <+: c.drop p := by
      rw [List.prefix_iff_eq_take.mp hpre,
        List.take_append_of_le_length (by rw [List.length_drop]; omega)]
      exact List.take_prefix _ _
    exact no_tok_occ hc ht p htk
  · have hj1 : 1 ≤ c.length - p := by omega
    have hj2 : c.length - p < t.length := by omega
    obtain ⟨x, hx⟩ : ∃ x, t[c.length - p]? = some x :=
      ⟨_, List.getElem?_eq_getElem hj2⟩
    have hg : t[c.length - p]? = (c ++ r)[c.length]? := by
      rw [IsPrefix_getElem hpre hj2, List.getElem?_drop]
      congr 1
      omega
    rw [List.getElem?_append_right (le_refl _), Nat.sub_self] at hg
    rcases hr with hr | hr
    · subst hr
      rw [hx] at hg
      simp at hg
    · rw [hr] at hg
      exact ht.no_lb hj1 hg

/-- No occurrence of a token `t` can start strictly inside a different
token `t'`. -/
theorem no_occ_in_tok {t t' r : List Char} (ht : IsToken t) (ht' : IsToken t')
    (hne : t ≠ t') : ∀ p, p < t'.length → ¬ t <+: (t' ++ r).drop p := by
  intro p hp hpre
  rcases Nat.eq_zero_or_pos p with rfl | hpos
  · rw [List.drop_zero] at hpre
    exact hne (tok_prefix_tok ht ht' hpre)
  · have h0 : t[0]? = some '[' := ht.head_lb
    have hlen := ht.length_ge
    have hg : t[0]? = t'[p]? := by
      rw [IsPrefix_getElem hpre (by omega), List.getElem?_drop, Nat.add_zero,
        List.getElem?_append_left hp]
    exact ht'.no_lb hpos (by rw [← hg, h0])

/-! ## Fuel irrelevance and stepping lemmas for the scanner -/

theorem findAllGo_fuel :
    ∀ f₁ f₂ s, s.length ≤ f₁ → s.length ≤ f₂ → findAllGo f₁ s = findAllGo f₂ s := by
  intro f₁
  induction f₁ with
  | zero =>
    intro f₂ s h1 _
    have hs : s = [] := List.eq_nil_of_length_eq_zero (by omega)
    subst hs
    cases f₂ <;> rfl
  | succ f ih =>
    intro f₂ s h1 h2
    cases s with
    | nil => cases f₂ <;> rfl
    | cons c rest =>
      cases f₂ with
      | zero => simp at h2
      | succ g =>
        simp only [List.length_cons] at h1 h2
        rcases hm : matchLen (c :: rest) with _ | ℓ
        · simp only [findAllGo, hm]
          exact ih _ _ (by omega) (by omega)
        · simp only [findAllGo, hm]
          congr 1
          apply ih
          · rw [List.length_drop]
            simp only [List.length_cons]
            omega
          · rw [List.length_drop]
            simp only [List.length_cons]
            omega

theorem findAll_eq_go {f : Nat} {s : List Char} (h : s.length ≤ f) :
    findAll s = findAllGo f s :=
  findAllGo_fuel _ _ _ (le_refl _) h

theorem findAll_cons_none {c : Char} {rest : List Char}
    (hm : matchLen (c :: rest) = none) : findAll (c :: rest) = findAll rest := by
  show findAllGo (rest.length + 1) (c :: rest) = _
  simp only [findAllGo, hm]
  rfl

theorem findAll_cons_some {c : Char} {rest : List Char} {ℓ : Nat}
    (hm : matchLen (c :: rest) = some ℓ) :
    findAll (c :: rest) =
      (c :: rest).take (ℓ + 11) :: findAll ((c :: rest).drop (ℓ + 11)) := by
  show findAllGo (rest.length + 1) (c :: rest) = _
  simp only [findAllGo, hm]
  congr 1
  refine (findAllGo_fuel _ _ _ ?_ (le_refl _))
  rw [List.length_drop]
  simp only [List.length_cons]
  omega

theorem matchLen_none_of_no_tok {s : List Char}
    (h : ∀ tk, IsToken tk → ¬ tk <+: s) : matchLen s = none := by
  rcases hm : matchLen s with _ | ℓ
  · rfl
  · exfalso
    obtain ⟨T, H, r, hs, _, hT, hTc, hH, hHc⟩ := matchLen_sound hm
    refine h (mkTok T H) ⟨T, H, rfl, hT, hTc, hH, hHc⟩ ?_
    rw [hs]
    exact List.prefix_append _ _

/-- The scanner finds nothing in a token-free string. -/
theorem findAll_eq_nil_of_noTokSub {s : List Char} (h : NoTokSub s) :
    findAll s = [] := by
  induction s with
  | nil => rfl
  | cons c rest ih =>
    rw [findAll_cons_none (matchLen_none_of_no_tok fun tk htk hp =>
      no_tok_occ h htk 0 (by simpa using hp))]
    exact ih (by have := noTokSub_drop h 1; simpa using this)

/-- The scanner skips over a region in which no match starts. -/
theorem findAll_append_no_match {c r : List Char}
    (h : ∀ p, p < c.length → matchLen ((c ++ r).drop p) = none) :
    findAll (c ++ r) = findAll r := by
  induction c with
  | nil => simp
  | cons ch c' ih =>
    have h0 := h 0 (by simp)
    simp only [List.drop_zero, List.cons_append] at h0
    rw [List.cons_append, findAll_cons_none h0]
    exact ih fun p hp => by
      have := h (p + 1) (by simp; omega)
      simpa using this

theorem IsToken.ne_nil {tk : List Char} (h : IsToken tk) : tk ≠ [] := by
  have := h.length_ge
  intro he
  subst he
  simp at this

/-- The scanner, positioned at a token, emits exactly that token and
resumes after it. -/
theorem findAll_at_tok {t r : List Char} (ht : IsToken t) :
    findAll (t ++ r) = t :: findAll r := by
  obtain ⟨T, H, rfl, hT, hTc, hH, hHc⟩ := ht
  have hm := matchLen_complete hT hTc hH hHc (r := r)
  have hlen : (mkTok T H).length = T.length + 11 := by
    rw [mkTok_length]
    omega
  have hcons : mkTok T H ++ r = '[' :: ((T ++ '_' :: (H ++ [']'])) ++ r) := by
    simp [mkTok]
  rw [hcons] at hm
  rw [hcons, findAll_cons_some hm, ← hcons, ← hlen, List.take_left, List.drop_left]

/-! ## Simultaneous substitution: splicing per-span strings into the text -/

/-- The token `encode_query` derives for a span of `text`. -/
def tokOf (text : List Char) (sp : Span) : List Char :=
  get_token_hash (sliceStr text sp.start sp.stop) sp.entity_type

/-- The original substring a span covers. -/
def valOf (text : List Char) (sp : Span) : List Char :=
  sliceStr text sp.start sp.stop

/-- `spliceTo text i spans g j`: the text from `i` to `j` with every span
replaced by `g` of it; meaningful when the spans lie ascending and disjoint
between `i` and `j`. -/
def spliceTo (text : List Char) (i : Nat) (spans : List Span)
    (g : Span → List Char) (j : Nat) : List Char :=
  match spans with
  | [] => sliceStr text i j
  | sp :: rest => sliceStr text i sp.start ++ g sp ++ spliceTo text sp.stop rest g j

/-- The spans are ascending, pairwise disjoint and lie within `[i, j]`. -/
def ChainOK (i : Nat) (spans : List Span) (j : Nat) : Prop :=
  match spans with
  | [] => i ≤ j
  | sp :: rest => i ≤ sp.start ∧ sp.start ≤ sp.stop ∧ ChainOK sp.stop rest j

theorem ChainOK_le {i j : Nat} : ∀ {spans : List Span}, ChainOK i spans j → i ≤ j := by
  intro spans
  induction spans generalizing i with
  | nil => exact fun h => h
  | cons sp rest ih =>
    rintro ⟨h1, h2, h3⟩
    exact le_trans h1 (le_trans h2 (ih h3))

theorem ChainOK_mono_left {i i' j : Nat} {spans : List Span} (h : i' ≤ i)
    (hch : ChainOK i spans j) : ChainOK i' spans j := by
  cases spans with
  | nil => exact le_trans h hch
  | cons sp rest => exact ⟨le_trans h hch.1, hch.2.1, hch.2.2⟩

theorem ChainOK_append {i m j : Nat} :
    ∀ {xs ys : List Span}, ChainOK i xs m → ChainOK m ys j → ChainOK i (xs ++ ys) j := by
  intro xs
  induction xs generalizing i with
  | nil => exact fun h1 h2 => ChainOK_mono_left (by exact h1) h2
  | cons sp rest ih =>
    rintro ys ⟨h1, h2, h3⟩ hys
    exact ⟨h1, h2, ih h3 hys⟩

theorem sliceStr_append {text : List Char} {i s e : Nat} (h1 : i ≤ s) (h2 : s ≤ e) :
    sliceStr text i s ++ sliceStr text s e = sliceStr text i e := by
  unfold sliceStr
  have hd : text.drop s = List.drop (s - i) (text.drop i) := by
    rw [List.drop_drop]
    congr 1
    omega
  rw [hd, ← List.take_add (text.drop i) (s - i) (e - s)]
  congr 1
  omega

theorem sliceStr_zero_take {text : List Char} {b : Nat} :
    sliceStr text 0 b = text.take b := by
  simp [sliceStr]

theorem sliceStr_to_len {text : List Char} {i : Nat} :
    sliceStr text i text.length = text.drop i := by
  unfold sliceStr
  have : (text.drop i).length = text.length - i := List.length_drop i text
  rw [← this, List.take_length]

/-- Splicing the original values back is the identity. -/
theorem spliceTo_val_id {text : List Char} {j : Nat} :
    ∀ {spans : List Span} {i : Nat}, ChainOK i spans j →
      spliceTo text i spans (valOf text) j = sliceStr text i j := by
  intro spans
  induction spans with
  | nil => exact fun _ => rfl
  | cons sp rest ih =>
    rintro i ⟨h1, h2, h3⟩
    simp only [spliceTo, valOf]
    rw [ih h3, sliceStr_append h1 h2, sliceStr_append (le_trans h1 h2) (ChainOK_le h3)]

/-- A span substituted by its own value merges with the surrounding text. -/
theorem splice_absorb {text : List Char} {g : Span → List Char} {j : Nat}
    {sp : Span} {rest : List Span} {i : Nat} (h1 : i ≤ sp.start)
    (h2 : sp.start ≤ sp.stop) (h3 : ChainOK sp.stop rest j) :
    sliceStr text i sp.start ++ (valOf text sp ++ spliceTo text sp.stop rest g j) =
      spliceTo text i rest g j := by
  cases rest with
  | nil =>
    simp only [spliceTo, valOf, ← List.append_assoc]
    rw [sliceStr_append h1 h2, sliceStr_append (le_trans h1 h2) h3]
  | cons sp2 rest2 =>
    obtain ⟨h4, h5, h6⟩ := h3
    simp only [spliceTo, valOf, ← List.append_assoc]
    rw [sliceStr_append h1 h2, sliceStr_append (le_trans h1 h2) h4]

/-- Appending one more span to a splice. -/
theorem spliceTo_append_single {text : List Char} {g : Span → List Char}
    {sp : Span} {j : Nat} :
    ∀ {xs : List Span} {i : Nat},
      spliceTo text i (xs ++ [sp]) g j =
        spliceTo text i xs g sp.start ++ g sp ++ sliceStr text sp.stop j := by
  intro xs
  induction xs with
  | nil => simp [spliceTo]
  | cons x xs2 ih =>
    intro i
    simp only [List.cons_append, spliceTo, List.append_eq]
    rw [ih]
    simp [List.append_assoc]

/-- Replacing one token in a splice replaces precisely the spans carrying
that token.  This is the core of the decode correctness argument. -/
theorem replaceAll_splice {text : List Char} (hno : NoTokSub text)
    {t v : List Char} (ht : IsToken t) :
    ∀ spans i (g : Span → List Char), ChainOK i spans text.length →
      (∀ sp ∈ spans, g sp = tokOf text sp ∨ g sp = valOf text sp) →
      (∀ sp ∈ spans, IsToken (tokOf text sp)) →
      (∀ sp ∈ spans, tokOf text sp = t → valOf text sp = v) →
      replaceAll t v (spliceTo text i spans g text.length) =
        spliceTo text i spans
          (fun sp => if tokOf text sp = t then valOf text sp else g sp) text.length := by
  intro spans
  induction spans with
  | nil =>
    intro i g _ _ _ _
    simp only [spliceTo]
    exact replaceAll_no_occ (no_tok_occ (noTokSub_sliceStr hno i text.length) ht)
  | cons sp rest ih =>
    intro i g hch hg htk hv
    obtain ⟨his, hse, hch2⟩ := hch
    have hmem : sp ∈ sp :: rest := List.mem_cons_self _ _
    have hgrest : ∀ x ∈ rest, g x = tokOf text x ∨ g x = valOf text x :=
      fun x hx => hg x (List.mem_cons_of_mem _ hx)
    have htkrest : ∀ x ∈ rest, IsToken (tokOf text x) :=
      fun x hx => htk x (List.mem_cons_of_mem _ hx)
    have hvrest : ∀ x ∈ rest, tokOf text x = t → valOf text x = v :=
      fun x hx => hv x (List.mem_cons_of_mem _ hx)
    simp only [spliceTo, List.append_assoc]
    rcases hg sp hmem with hgt | hgv
    · -- the span still carries its token
      have htok2 : IsToken (tokOf text sp) := htk sp hmem
      have hhead : (tokOf text sp ++ spliceTo text sp.stop rest g text.length)[0]? =
          some '[' := by
        rw [List.getElem?_append_left (by have := htok2.length_ge; omega)]
        exact htok2.head_lb
      rw [hgt]
      rw [replaceAll_append_no_occ
        (no_occ_in_chunk ht (noTokSub_sliceStr hno i sp.start) (Or.inr hhead))]
      by_cases hcase : tokOf text sp = t
      · have hval : valOf text sp = v := hv sp hmem hcase
        rw [hcase, replaceAll_head ht.ne_nil (List.prefix_append _ _), List.drop_left]
        rw [ih sp.stop g hch2 hgrest htkrest hvrest]
        simp [hcase, hval]
      · rw [replaceAll_append_no_occ (no_occ_in_tok ht htok2 (fun he => hcase he.symm))]
        rw [ih sp.stop g hch2 hgrest htkrest hvrest]
        simp [hcase, hgt]
    · -- the span already carries its value
      rw [hgv, ite_self, splice_absorb his hse hch2,
        splice_absorb his hse hch2
          (g := fun sp => if tokOf text sp = t then valOf text sp else g sp)]
      exact ih i g (ChainOK_mono_left (le_trans his hse) hch2) hgrest htkrest hvrest

/-- The scanner output on a splice of valid tokens is exactly the token
list, in order. -/
theorem findAll_splice {text : List Char} (hno : NoTokSub text) :
    ∀ spans i, ChainOK i spans text.length →
      (∀ sp ∈ spans, IsToken (tokOf text sp)) →
      findAll (spliceTo text i spans (tokOf text) text.length) =
        spans.map (tokOf text) := by
  intro spans
  induction spans with
  | nil =>
    intro i _ _
    simp only [spliceTo, List.map_nil]
    exact findAll_eq_nil_of_noTokSub (noTokSub_sliceStr hno i text.length)
  | cons sp rest ih =>
    intro i hch htk
    obtain ⟨his, hse, hch2⟩ := hch
    have htok2 : IsToken (tokOf text sp) := htk sp (List.mem_cons_self _ _)
    have hhead : (tokOf text sp ++ spliceTo text sp.stop rest (tokOf text) text.length)[0]? =
        some '[' := by
      rw [List.getElem?_append_left (by have := htok2.length_ge; omega)]
      exact htok2.head_lb
    simp only [spliceTo, List.map_cons, List.append_assoc]
    rw [findAll_append_no_match fun p hp => matchLen_none_of_no_tok fun tk htkk =>
      no_occ_in_chunk htkk (noTokSub_sliceStr hno i sp.start) (Or.inr hhead) p hp]
    rw [findAll_at_tok htok2,
      ih sp.stop hch2 (fun x hx => htk x (List.mem_cons_of_mem _ hx))]

/-! ## The stable descending sort of `encode_query` -/

theorem insertDesc_perm (x : Span) : ∀ l, (insertDescByStart x l).Perm (x :: l) := by
  intro l
  induction l with
  | nil => exact List.Perm.refl _
  | cons y ys ih =>
    simp only [insertDescByStart]
    split_ifs
    · exact (List.Perm.cons y ih).trans (List.Perm.swap x y ys)
    · exact List.Perm.refl _

theorem sortByStartDesc_perm (l : List Span) : (sortByStartDesc l).Perm l := by
  suffices h : ∀ acc, (l.foldl (fun acc x => insertDescByStart x acc) acc).Perm (l ++ acc) by
    simpa using h []
  induction l with
  | nil => exact fun acc => by simp
  | cons x xs ih =>
    intro acc
    simp only [List.foldl_cons, List.cons_append]
    refine ((ih _).trans ?_)
    refine (List.Perm.append_left xs (insertDesc_perm x acc)).trans ?_
    exact List.perm_middle

theorem mem_insertDesc {x a : Span} {l : List Span} :
    a ∈ insertDescByStart x l ↔ a = x ∨ a ∈ l :=
  ⟨fun h => by simpa using (insertDesc_perm x l).mem_iff.mp h,
   fun h => (insertDesc_perm x l).mem_iff.mpr (by simpa using h)⟩

theorem insertDesc_pairwise {x : Span} :
    ∀ {l : List Span}, List.Pairwise (fun a b => b.start ≤ a.start) l →
      List.Pairwise (fun a b => b.start ≤ a.start) (insertDescByStart x l) := by
  intro l
  induction l with
  | nil => exact fun _ => List.pairwise_singleton _ _
  | cons y ys ih =>
    intro hp
    obtain ⟨hy, hys⟩ := List.pairwise_cons.mp hp
    simp only [insertDescByStart]
    split_ifs with hc
    · refine List.pairwise_cons.mpr ⟨?_, ih hys⟩
      intro a ha
      rcases mem_insertDesc.mp ha with rfl | ha
      · exact hc
      · exact hy a ha
    · refine List.pairwise_cons.mpr ⟨?_, hp⟩
      intro a ha
      rcases ha with _ | ha
      · omega
      · exact le_trans (hy a (by assumption)) (by omega)

theorem sortByStartDesc_sorted (l : List Span) :
    List.Pairwise (fun a b => b.start ≤ a.start) (sortByStartDesc l) := by
  suffices h : ∀ acc, List.Pairwise (fun a b => b.start ≤ a.start) acc →
      List.Pairwise (fun a b => b.start ≤ a.start)
        (l.foldl (fun acc x => insertDescByStart x acc) acc) by
    exact h [] List.Pairwise.nil
  induction l with
  | nil => exact fun acc h => h
  | cons x xs ih =>
    intro acc hacc
    exact ih _ (insertDesc_pairwise hacc)

/-! ## Descending-order well-formedness of the substitution sequence -/

/-- The spans, in the processing order of `encode_query` (descending
starts), are disjoint and bounded by `k`. -/
def DescOK (k : Nat) : List Span → Prop
  | [] => True
  | sp :: rest => sp.start ≤ sp.stop ∧ sp.stop ≤ k ∧ DescOK sp.start rest

theorem DescOK_mono {k k' : Nat} {l : List Span} (h : k ≤ k') (hd : DescOK k l) :
    DescOK k' l := by
  cases l with
  | nil => trivial
  | cons sp rest => exact ⟨hd.1, le_trans hd.2.1 h, hd.2.2⟩

/-- Two spans do not overlap. -/
def SpanSep (a b : Span) : Prop := a.stop ≤ b.start ∨ b.stop ≤ a.start

instance instSpanSepDecidable (a b : Span) : Decidable (SpanSep a b) :=
  inferInstanceAs (Decidable (_ ∨ _))

theorem descOK_of_sorted :
    ∀ {l : List Span} {k : Nat}, List.Pairwise (fun a b => b.start ≤ a.start) l →
      List.Pairwise SpanSep l → (∀ sp ∈ l, sp.start < sp.stop) →
      (∀ sp ∈ l, sp.stop ≤ k) → DescOK k l := by
  intro l
  induction l with
  | nil => exact fun _ _ _ _ => trivial
  | cons sp rest ih =>
    intro k hsort hsep hne hb
    obtain ⟨hs1, hs2⟩ := List.pairwise_cons.mp hsort
    obtain ⟨hp1, hp2⟩ := List.pairwise_cons.mp hsep
    refine ⟨le_of_lt (hne sp (List.mem_cons_self _ _)), hb sp (List.mem_cons_self _ _), ?_⟩
    refine ih hs2 hp2 (fun x hx => hne x (List.mem_cons_of_mem _ hx)) ?_
    intro x hx
    rcases hp1 x hx with h | h
    · have := hs1 x hx
      have := hne sp (List.mem_cons_self _ _)
      omega
    · exact h

/-- Reversing a descending disjoint sequence gives an ascending chain. -/
theorem chainOK_reverse :
    ∀ {l : List Span} {k : Nat}, DescOK k l → ChainOK 0 l.reverse k := by
  intro l
  induction l with
  | nil => exact fun _ => Nat.zero_le _
  | cons sp rest ih =>
    intro k hd
    obtain ⟨h1, h2, h3⟩ := hd
    simp only [List.reverse_cons]
    exact ChainOK_append (ih h3) ⟨le_refl _, h1, h2⟩

/-! ## The working-text evolution inside `encode_query` -/

/-- One substitution of the `encode_query` loop, as a pure operation on the
working text (the token is computed from the original `text`). -/
def replStep (text cur : List Char) (sp : Span) : List Char :=
  cur.take sp.start ++ tokOf text sp ++ cur.drop sp.stop

/-- The mapping record `encode_query` appends for one span. -/
def mappingOf (text : List Char) (sp : Span) : Mapping :=
  ⟨tokOf text sp, sp.entity_type, sp.stop - sp.start⟩

theorem encode_foldl_fst (text : List Char) :
    ∀ (l : List Span) (a : List Char × List Mapping × Store),
      (l.foldl (encodeSpanStep text) a).1 = l.foldl (replStep text) a.1 := by
  intro l
  induction l with
  | nil => exact fun _ => rfl
  | cons sp rest ih => exact fun a => ih _

theorem encode_foldl_mappings (text : List Char) :
    ∀ (l : List Span) (a : List Char × List Mapping × Store),
      (l.foldl (encodeSpanStep text) a).2.1 = a.2.1 ++ l.map (mappingOf text) := by
  intro l
  induction l with
  | nil => exact fun _ => by simp
  | cons sp rest ih =>
    intro a
    simp only [List.foldl_cons, List.map_cons]
    rw [ih]
    simp [encodeSpanStep, mappingOf, tokOf]

/-- Splitting off an untouched right part of the working text: when all
remaining substitutions happen inside the first `C.length` characters, the
tail `R` just rides along. -/
theorem foldl_repl_append (text : List Char) :
    ∀ (l : List Span) (C R : List Char), DescOK C.length l →
      l.foldl (replStep text) (C ++ R) = l.foldl (replStep text) C ++ R := by
  intro l
  induction l with
  | nil => exact fun _ _ _ => rfl
  | cons sp rest ih =>
    intro C R hd
    obtain ⟨h1, h2, h3⟩ := hd
    simp only [List.foldl_cons, replStep]
    rw [List.take_append_of_le_length (by omega), List.drop_append_of_le_length h2]
    rw [show C.take sp.start ++ tokOf text sp ++ (C.drop sp.stop ++ R) =
      (C.take sp.start ++ tokOf text sp ++ C.drop sp.stop) ++ R by
        simp [List.append_assoc]]
    refine ih _ R ?_
    refine DescOK_mono ?_ h3
    simp [List.length_take]
    omega

/-- The working text after the whole descending substitution pass is the
simultaneous splice of the tokens into the original text. -/
theorem foldl_repl_eq_splice (text : List Char) :
    ∀ (l : List Span) (s : Nat), DescOK s l → s ≤ text.length →
      l.foldl (replStep text) (text.take s) =
        spliceTo text 0 l.reverse (tokOf text) s := by
  intro l
  induction l with
  | nil =>
    intro s _ _
    simp only [List.foldl_nil, List.reverse_nil, spliceTo]
    rw [sliceStr_zero_take]
  | cons sp rest ih =>
    intro s hd hs
    obtain ⟨h1, h2, h3⟩ := hd
    simp only [List.foldl_cons, replStep, List.reverse_cons]
    rw [List.take_take, Nat.min_eq_left (by omega), List.drop_take]
    rw [show text.take sp.start ++ tokOf text sp ++ List.take (s - sp.stop) (text.drop sp.stop) =
      text.take sp.start ++ (tokOf text sp ++ sliceStr text sp.stop s) by
        simp [sliceStr, List.append_assoc]]
    rw [foldl_repl_append text rest _ _ (by
      refine DescOK_mono ?_ h3
      rw [List.length_take]
      simp
      omega)]
    rw [spliceTo_append_single]
    rw [ih sp.start h3 (by omega)]
    simp [List.append_assoc]

/-! ## Small facts about the modelled cipher -/

theorem encrypt_value_ne_nil (v : List Char) : encrypt_value v ≠ [] := by
  simp [encrypt_value, fernetTag]

theorem decrypt_encrypt (v : List Char) : decrypt_value (encrypt_value v) = some v := by
  unfold decrypt_value encrypt_value
  rw [if_pos (List.isPrefixOf_iff_prefix.mpr (List.prefix_append _ _)),
    show fernetTag.length = List.length fernetTag from rfl, List.drop_left]

theorem encrypt_value_inj {a b : List Char} (h : encrypt_value a = encrypt_value b) :
    a = b := by
  simpa [encrypt_value] using h

theorem truthy_some {c : List Char} (h : c ≠ []) : truthy (some c) = true := by
  simp [truthy, h]

/-- Substitution of `g` functions that agree on the spans present. -/
theorem spliceTo_congr {text : List Char} {j : Nat} :
    ∀ {spans : List Span} {i : Nat} {g g2 : Span → List Char},
      (∀ sp ∈ spans, g sp = g2 sp) →
      spliceTo text i spans g j = spliceTo text i spans g2 j := by
  intro spans
  induction spans with
  | nil => exact fun _ => rfl
  | cons sp rest ih =>
    intro i g g2 h
    simp only [spliceTo]
    rw [h sp (List.mem_cons_self _ _), ih fun x hx => h x (List.mem_cons_of_mem _ hx)]

/-! ## Store read at an in-process hit: no slower tier touched, no state
change -/

theorem storeGet_hit {st : Store} {tok c : List Char}
    (h : lookupA st.token_store tok = some c) (hne : c ≠ []) :
    storeGet st tok = (some c, st, false, false) := by
  simp [storeGet, h, truthy_some hne]

/-! ## The decode loop of `decode_text` on a splice whose tokens all
resolve from the in-process tier -/

theorem decodeLoop_tokens {text : List Char} (hno : NoTokSub text) {st : Store}
    {spans : List Span} (hch : ChainOK 0 spans text.length)
    (htoks : ∀ sp ∈ spans, IsToken (tokOf text sp)) :
    ∀ (L : List (List Char)) (g : Span → List Char),
      (∀ t ∈ L, IsToken t) →
      (∀ t ∈ L, ∃ vt, lookupA st.token_store t = some (encrypt_value vt) ∧
        ∀ sp ∈ spans, tokOf text sp = t → valOf text sp = vt) →
      (∀ sp ∈ spans, g sp = tokOf text sp ∨ g sp = valOf text sp) →
      decodeLoop L (spliceTo text 0 spans g text.length) st =
        (spliceTo text 0 spans
          (fun sp => if tokOf text sp ∈ L then valOf text sp else g sp) text.length,
         st) := by
  intro L
  induction L with
  | nil =>
    intro g _ _ _
    simp only [decodeLoop]
    have he : (fun sp => if tokOf text sp ∈ ([] : List (List Char)) then valOf text sp
        else g sp) = g := by
      funext sp
      simp
    rw [he]
  | cons t L2 ih =>
    intro g htL hstore hg
    obtain ⟨vt, hlk, hvt⟩ := hstore t (List.mem_cons_self _ _)
    have htt : IsToken t := htL t (List.mem_cons_self _ _)
    simp only [decodeLoop, storeGet_hit hlk (encrypt_value_ne_nil vt),
      truthy_some (encrypt_value_ne_nil vt), Option.getD_some, decrypt_encrypt, if_true]
    rw [replaceAll_splice hno htt spans 0 g hch hg htoks hvt]
    rw [ih (fun sp => if tokOf text sp = t then valOf text sp else g sp)
      (fun x hx => htL x (List.mem_cons_of_mem _ hx))
      (fun x hx => hstore x (List.mem_cons_of_mem _ hx))
      (fun sp hsp => by
        by_cases h : tokOf text sp = t
        · exact Or.inr (by simp [h])
        · simpa [h] using hg sp hsp)]
    congr 1
    refine spliceTo_congr fun sp _ => ?_
    by_cases h1 : tokOf text sp = t
    · simp [h1]
    · by_cases h2 : tokOf text sp ∈ L2 <;> simp [h1, h2]

/-! ## Shape of the SHA-256 hex digest and validity of produced tokens -/

theorem length_flatMap_pairs {α : Type} (f g : α → Char) (l : List α) :
    (l.flatMap fun b => [f b, g b]).length = 2 * l.length := by
  induction l with
  | nil => rfl
  | cons b r ih =>
    simp only [List.flatMap_cons, List.length_append, List.length_cons, ih]
    simp
    omega

theorem sha256bytes_length (msg : List Nat) : (sha256bytes msg).length = 32 := by
  simp [sha256bytes, word4]

theorem sha256hex_length (msg : List Nat) : (sha256hex msg).length = 64 := by
  unfold sha256hex
  rw [length_flatMap_pairs, sha256bytes_length]

theorem hexChar_upper_hex {n : Nat} (h : n < 16) :
    isHexUpChar ((hexChar n).toUpper) = true := by
  interval_cases n <;> decide

theorem mem_sha256hex_upper {msg : List Nat} {c : Char} (h : c ∈ sha256hex msg) :
    isHexUpChar c.toUpper = true := by
  obtain ⟨b, _, hc⟩ := List.mem_flatMap.mp h
  simp only [List.mem_cons, List.not_mem_nil, or_false] at hc
  rcases hc with rfl | rfl
  · exact hexChar_upper_hex (Nat.mod_lt _ (by norm_num))
  · exact hexChar_upper_hex (Nat.mod_lt _ (by norm_num))

/-- Every token built by `get_token_hash` from a recognized entity type
matches the token grammar. -/
theorem isToken_get_token_hash {value entity_type : List Char}
    (h : entity_type ∈ PII_ENTITIES) : IsToken (get_token_hash value entity_type) := by
  refine ⟨entity_type,
    ((sha256hex (utf8Encode value)).take 8).map Char.toUpper, ?_, ?_, ?_, ?_, ?_⟩
  · simp [get_token_hash, mkTok, List.append_assoc]
  · simp only [PII_ENTITIES, List.mem_cons, List.not_mem_nil, or_false] at h
    rcases h with rfl | rfl | rfl | rfl | rfl | rfl <;> decide
  · intro c hc
    simp only [PII_ENTITIES, List.mem_cons, List.not_mem_nil, or_false] at h
    rcases h with rfl | rfl | rfl | rfl | rfl | rfl <;> fin_cases hc <;> decide
  · rw [List.length_map, List.length_take, sha256hex_length]
    decide
  · intro c hc
    obtain ⟨d, hd, rfl⟩ := List.mem_map.mp hc
    exact mem_sha256hex_upper (List.take_subset _ _ hd)

theorem isToken_tokOf {text : List Char} {sp : Span}
    (h : sp.entity_type ∈ PII_ENTITIES) : IsToken (tokOf text sp) :=
  isToken_get_token_hash h

/-! ## Putting the encoder pass together -/

/-- The encoded text produced by `encode_query` on nonempty, in-bounds,
pairwise-disjoint spans is the simultaneous splice of the spans' tokens
into the original text: every token sits exactly where `text[start:end]`
was. -/
theorem encode_query_eq_splice {detected : List Span} {text : List Char} {st : Store}
    (hsep : List.Pairwise SpanSep detected)
    (hne : ∀ sp ∈ detected, sp.start < sp.stop)
    (hbound : ∀ sp ∈ detected, sp.stop ≤ text.length) :
    (encode_query detected text st).1 =
      spliceTo text 0 (sortByStartDesc detected).reverse (tokOf text) text.length := by
  have hperm := sortByStartDesc_perm detected
  have hdesc : DescOK text.length (sortByStartDesc detected) := by
    refine descOK_of_sorted (sortByStartDesc_sorted detected) ?_ ?_ ?_
    · exact (List.Perm.pairwise_iff (fun h => h.symm) hperm).mpr hsep
    · exact fun sp hsp => hne sp (hperm.mem_iff.mp hsp)
    · exact fun sp hsp => hbound sp (hperm.mem_iff.mp hsp)
  show ((sortByStartDesc detected).foldl (encodeSpanStep text) (text, [], st)).1 = _
  rw [encode_foldl_fst]
  have h2 := foldl_repl_eq_splice text (sortByStartDesc detected) text.length hdesc (le_refl _)
  rw [List.take_length] at h2
  exact h2

/-- Happy-path round trip: on token-free text with nonempty, in-bounds,
pairwise-disjoint detected spans of recognized entity types, if after
encoding every span's mapping survives in the in-process store, then
decoding the encoded text against that store returns the original text. -/
theorem decode_encode_roundtrip {detected : List Span} {text : List Char} {st : Store}
    (hno : NoTokSub text)
    (hsep : List.Pairwise SpanSep detected)
    (hne : ∀ sp ∈ detected, sp.start < sp.stop)
    (hbound : ∀ sp ∈ detected, sp.stop ≤ text.length)
    (hent : ∀ sp ∈ detected, sp.entity_type ∈ PII_ENTITIES)
    (hstored : ∀ sp ∈ detected,
      lookupA (encode_query detected text st).2.2.token_store (tokOf text sp) =
        some (encrypt_value (valOf text sp))) :
    (decode_text (encode_query detected text st).1
      (encode_query detected text st).2.2).1 = text := by
  have hperm := sortByStartDesc_perm detected
  have hmemr : ∀ x, x ∈ (sortByStartDesc detected).reverse ↔ x ∈ detected := by
    intro x
    rw [List.mem_reverse]
    exact hperm.mem_iff
  have hdesc : DescOK text.length (sortByStartDesc detected) := by
    refine descOK_of_sorted (sortByStartDesc_sorted detected) ?_ ?_ ?_
    · exact (List.Perm.pairwise_iff (fun h => h.symm) hperm).mpr hsep
    · exact fun sp hsp => hne sp (hperm.mem_iff.mp hsp)
    · exact fun sp hsp => hbound sp (hperm.mem_iff.mp hsp)
  have hchain : ChainOK 0 (sortByStartDesc detected).reverse text.length :=
    chainOK_reverse hdesc
  have htoks : ∀ sp ∈ (sortByStartDesc detected).reverse, IsToken (tokOf text sp) :=
    fun sp hsp => isToken_tokOf (hent sp ((hmemr sp).mp hsp))
  rw [encode_query_eq_splice hsep hne hbound]
  unfold decode_text
  rw [findAll_splice hno _ 0 hchain htoks]
  have hL1 : ∀ t ∈ ((sortByStartDesc detected).reverse.map (tokOf text)).dedup,
      IsToken t := by
    intro t ht
    obtain ⟨sp, hsp, rfl⟩ := List.mem_map.mp (List.mem_dedup.mp ht)
    exact htoks sp hsp
  have hL2 : ∀ t ∈ ((sortByStartDesc detected).reverse.map (tokOf text)).dedup,
      ∃ vt, lookupA (encode_query detected text st).2.2.token_store t =
          some (encrypt_value vt) ∧
        ∀ sp ∈ (sortByStartDesc detected).reverse, tokOf text sp = t →
          valOf text sp = vt := by
    intro t ht
    obtain ⟨sp0, hsp0, rfl⟩ := List.mem_map.mp (List.mem_dedup.mp ht)
    refine ⟨valOf text sp0, hstored sp0 ((hmemr sp0).mp hsp0), ?_⟩
    intro sp hsp heq
    have h1 := hstored sp ((hmemr sp).mp hsp)
    have h2 := hstored sp0 ((hmemr sp0).mp hsp0)
    rw [heq] at h1
    rw [h1] at h2
    exact encrypt_value_inj (Option.some.inj h2)
  rw [decodeLoop_tokens hno hchain htoks _ (tokOf text) hL1 hL2 (fun sp _ => Or.inl rfl)]
  show spliceTo text 0 _ _ text.length = text
  rw [spliceTo_congr (fun sp hsp =>
    if_pos (List.mem_dedup.mpr (List.mem_map_of_mem _ hsp)))]
  rw [spliceTo_val_id hchain, sliceStr_zero_take, List.take_length]

/-! ## Auxiliary store-lookup lemmas -/

theorem lookupA_insertA_self (m : List (List Char × List Char)) (k v : List Char) :
    lookupA (insertA m k v) k = some v := by
  simp [insertA, lookupA]

theorem lookupA_filter_ne {k k' : List Char} (h : k' ≠ k) :
    ∀ m : List (List Char × List Char),
      lookupA (m.filter fun p => p.1 ≠ k) k' = lookupA m k' := by
  intro m
  induction m with
  | nil => rfl
  | cons e rest ih =>
    obtain ⟨k0, v0⟩ := e
    by_cases he : k0 = k
    · rw [List.filter_cons_of_neg (by simp [he])]
      rw [ih]
      simp only [lookupA]
      rw [if_neg (by rw [he]; exact fun hc => h hc.symm)]
    · rw [List.filter_cons_of_pos (by simp [he])]
      simp only [lookupA]
      by_cases hk : k0 = k'
      · rw [if_pos hk, if_pos hk]
      · rw [if_neg hk, if_neg hk, ih]

theorem lookupA_insertA_ne {m : List (List Char × List Char)} {k k' v : List Char}
    (h : k' ≠ k) : lookupA (insertA m k v) k' = lookupA m k' := by
  simp only [insertA, lookupA]
  rw [if_neg (fun hc => h hc.symm), lookupA_filter_ne h]

theorem lookupRT_insertR_self (m : List (List Char × List Char × Nat))
    (k v : List Char) (ttl : Nat) : lookupRT (insertR m k v ttl) k = some (v, ttl) := by
  simp [insertR, lookupRT]

/-! ## Claim theorems -/

theorem noTokSub_short {s : List Char} (h : s.length < 12) : NoTokSub s := by
  intro a tk b hd htk
  have h1 := htk.length_ge
  have h2 := congrArg List.length hd
  simp only [List.length_append] at h2
  omega

/-- The store with every tier empty and the external cache unreachable. -/
def emptyStore : Store := ⟨[], false, [], []⟩

/-- C5: every token produced by `get_token_hash`, for every value string
and every entity type in the recognized set, matches the grammar
`\[[A-Z_]+_[0-9A-F]{8}\]`: an opening bracket, the uppercase entity type,
an underscore, exactly 8 uppercase hexadecimal characters derived from the
SHA-256 hash of the value, and a closing bracket. -/
theorem claim_C5_token_format (value entity_type : List Char)
    (h : entity_type ∈ PII_ENTITIES) : IsToken (get_token_hash value entity_type) :=
  isToken_get_token_hash h

theorem claim_C5_witness :
    etPERSON ∈ PII_ENTITIES ∧ IsToken (get_token_hash ['J', 'o', 'h', 'n'] etPERSON) :=
  ⟨by decide, claim_C5_token_format ['J', 'o', 'h', 'n'] etPERSON (by decide)⟩

/-- C6: tokenization is deterministic and store-independent — the mapping
list produced by `encode_query` is exactly the per-span image of
`mappingOf` (whose token field is `get_token_hash` of the span's value and
entity type alone), and neither the encoded text nor the mappings depend
on the initial store state, call order, or prior calls. -/
theorem claim_C6_deterministic_tokens (detected : List Span) (text : List Char)
    (st st2 : Store) :
    (encode_query detected text st).2.1 = (sortByStartDesc detected).map (mappingOf text) ∧
    (encode_query detected text st).1 = (encode_query detected text st2).1 ∧
    (encode_query detected text st).2.1 = (encode_query detected text st2).2.1 := by
  refine ⟨?_, ?_, ?_⟩
  · show ((sortByStartDesc detected).foldl (encodeSpanStep text) (text, [], st)).2.1 = _
    rw [encode_foldl_mappings]
    simp
  · show ((sortByStartDesc detected).foldl (encodeSpanStep text) (text, [], st)).1 =
      ((sortByStartDesc detected).foldl (encodeSpanStep text) (text, [], st2)).1
    rw [encode_foldl_fst, encode_foldl_fst]
  · show ((sortByStartDesc detected).foldl (encodeSpanStep text) (text, [], st)).2.1 =
      ((sortByStartDesc detected).foldl (encodeSpanStep text) (text, [], st2)).2.1
    rw [encode_foldl_mappings, encode_foldl_mappings]

/-- C10: `decode_text` is the identity on token-free text — for every
input containing no substring matching the token grammar, the decoded
output equals the input, regardless of the contents of any store tier. -/
theorem claim_C10_decode_identity (text : List Char) (st : Store)
    (h : NoTokSub text) : (decode_text text st).1 = text := by
  unfold decode_text
  rw [findAll_eq_nil_of_noTokSub h]
  rfl

def junkStore : Store :=
  ⟨[(['X'], ['Y'])], true, [(['A'], ['B'], 5)], [(['C'], ['D'])]⟩

theorem claim_C10_witness :
    NoTokSub ['h', 'i', '[', ']'] ∧
      (decode_text ['h', 'i', '[', ']'] junkStore).1 = ['h', 'i', '[', ']'] :=
  ⟨noTokSub_short (by decide),
   claim_C10_decode_identity _ junkStore (noTokSub_short (by decide))⟩

/-- C8: detector totality and fallback.  `detect_pii` is a total function
(no exception escapes: every failure path is caught in the source), and:
a failed analyzer construction caches the permanent fallback marker so the
call and every subsequent call use `regex_detect_pii` (parts 1 and 2); a
successfully constructed analyzer that raises during one analysis makes
that call alone fall back, leaving the cached strategy an engine (part 3). -/
theorem claim_C8_detector_fallback :
    (∀ (e : Unit) (text : List Char),
      detect_pii (.error e) none text = (regex_detect_pii text, some .fallback)) ∧
    (∀ (init : Except Unit (List Char → Except Unit (List Span))) (text : List Char),
      detect_pii init (some .fallback) text = (regex_detect_pii text, some .fallback)) ∧
    (∀ (init : Except Unit (List Char → Except Unit (List Span)))
      (m : List Char → Except Unit (List Span)) (text : List Char),
      m text = .error () →
      detect_pii init (some (.engine m)) text = (regex_detect_pii text, some (.engine m))) := by
  refine ⟨fun e text => rfl, fun init text => rfl, fun init m text hm => ?_⟩
  simp [detect_pii, get_analyzer, hm]

theorem claim_C8_witness :
    ((fun _ : List Char => (Except.error () : Except Unit (List Span))) ['x'] =
      .error ()) ∧
    detect_pii (.error ()) none ['x'] = (regex_detect_pii ['x'], some .fallback) ∧
    detect_pii (.ok fun _ => .ok []) (some .fallback) ['x'] =
      (regex_detect_pii ['x'], some .fallback) ∧
    detect_pii (.ok fun _ => .ok []) (some (.engine fun _ => .error ())) ['x'] =
      (regex_detect_pii ['x'], some (.engine fun _ => .error ())) :=
  ⟨rfl, claim_C8_detector_fallback.1 () ['x'],
   claim_C8_detector_fallback.2.1 _ ['x'],
   claim_C8_detector_fallback.2.2 _ _ ['x'] rfl⟩

/-- C7: store put routing.  Every mapping written during `encode_query` or
`encode_results` goes through `storePut` (see `encodeSpanStep` and
`encodeCell`), which always writes the in-process tier; when the external
cache is reachable it writes the external tier with the TTL and leaves the
file tier untouched, when unreachable it writes the file tier and leaves
the external tier untouched — never both.  `storePut` is a total function:
unreachability is never surfaced to the caller. -/
theorem claim_C7_put_routing (st : Store) (tok v : List Char) (ttl : Nat) :
    lookupA (storePut st tok v ttl).token_store tok = some v ∧
    (st.redisConnected = true →
      lookupRT (storePut st tok v ttl).redisPii tok = some (v, ttl) ∧
      (storePut st tok v ttl).tokenFile = st.tokenFile) ∧
    (st.redisConnected = false →
      lookupA (storePut st tok v ttl).tokenFile tok = some v ∧
      (storePut st tok v ttl).redisPii = st.redisPii) ∧
    ¬ ((storePut st tok v ttl).redisPii ≠ st.redisPii ∧
       (storePut st tok v ttl).tokenFile ≠ st.tokenFile) := by
  rcases hconn : st.redisConnected with _ | _
  · simp [storePut, hconn, lookupA_insertA_self]
  · simp [storePut, hconn, lookupA_insertA_self, lookupRT_insertR_self]

def connStore : Store := ⟨[], true, [], []⟩

theorem claim_C7_witness :
    (connStore.redisConnected = true ∧
      lookupRT (storePut connStore ['t'] ['v'] 7).redisPii ['t'] = some (['v'], 7) ∧
      (storePut connStore ['t'] ['v'] 7).tokenFile = connStore.tokenFile) ∧
    (emptyStore.redisConnected = false ∧
      lookupA (storePut emptyStore ['t'] ['v'] 7).tokenFile ['t'] = some ['v'] ∧
      (storePut emptyStore ['t'] ['v'] 7).redisPii = emptyStore.redisPii) :=
  ⟨⟨rfl, (claim_C7_put_routing connStore ['t'] ['v'] 7).2.1 rfl⟩,
   ⟨rfl, (claim_C7_put_routing emptyStore ['t'] ['v'] 7).2.2.1 rfl⟩⟩

def c2Text : List Char := ['a', 'b', 'c', 'd']
def c2Spans : List Span := [⟨etPERSON, 0, 2⟩, ⟨etPERSON, 1, 3⟩]

/-- C2 (counterexample): the offset-safety claim quantifies over every
list of detected spans, but for the overlapping spans `[0,2)` and `[1,3)`
of `"abcd"` — nonempty, in bounds, of recognized type, as a detector can
produce (the phone and Aadhaar fallback patterns overlap on digit runs) —
the second-processed span's token does not replace `text[start:end]` of
the original string: the encoded text differs from the simultaneous
splice of the tokens. -/
theorem claim_C2_counterexample :
    (∀ sp ∈ c2Spans, sp.start < sp.stop ∧ sp.stop ≤ c2Text.length ∧
      sp.entity_type ∈ PII_ENTITIES) ∧
    (encode_query c2Spans c2Text emptyStore).1 ≠
      spliceTo c2Text 0 (sortByStartDesc c2Spans).reverse (tokOf c2Text) c2Text.length := by
  constructor
  · decide
  · decide

/-- C2 (amended): for every input string and every list of nonempty,
in-bounds, pairwise-disjoint detected spans, `encode_query` substitutes
each span with its token after the stable descending sort by start, and no
substituted value is corrupted by the length deltas of the other
substitutions: the encoded text is the simultaneous splice in which each
token occupies exactly the place of `text[start:end]` of the original
string. -/
theorem claim_C2_offset_safety {detected : List Span} {text : List Char} {st : Store}
    (hsep : List.Pairwise SpanSep detected)
    (hne : ∀ sp ∈ detected, sp.start < sp.stop)
    (hbound : ∀ sp ∈ detected, sp.stop ≤ text.length) :
    (encode_query detected text st).1 =
      spliceTo text 0 (sortByStartDesc detected).reverse (tokOf text) text.length :=
  encode_query_eq_splice hsep hne hbound

def c2wText : List Char := ['x', 'a', 'b', 'y', 'c', 'd']
def c2wSpans : List Span := [⟨etPERSON, 1, 3⟩, ⟨etEMAIL, 4, 6⟩]

theorem claim_C2_witness :
    List.Pairwise SpanSep c2wSpans ∧
    (encode_query c2wSpans c2wText emptyStore).1 =
      spliceTo c2wText 0 (sortByStartDesc c2wSpans).reverse (tokOf c2wText)
        c2wText.length :=
  ⟨by decide, claim_C2_offset_safety (by decide) (by decide) (by decide)⟩

def c1Text : List Char := ['a', 'b']
def c1Spans : List Span := [⟨etPERSON, 0, 2⟩, ⟨etPERSON, 1, 2⟩]

/-- C1 (counterexample): every premise of the round-trip claim as stated
holds — the input `"ab"` contains no token-grammar substring, both
detected spans are nonempty, in bounds and of recognized type, and after
encoding both spans' mappings are present in the in-process store — yet
decoding the encoded text does not reproduce the input, because the two
spans overlap and the second substitution destroys part of the first
token. -/
theorem claim_C1_counterexample :
    NoTokSub c1Text ∧
    (∀ sp ∈ c1Spans, sp.start < sp.stop ∧ sp.stop ≤ c1Text.length ∧
      sp.entity_type ∈ PII_ENTITIES) ∧
    (∀ sp ∈ c1Spans,
      lookupA (encode_query c1Spans c1Text emptyStore).2.2.token_store
        (tokOf c1Text sp) = some (encrypt_value (valOf c1Text sp))) ∧
    (decode_text (encode_query c1Spans c1Text emptyStore).1
      (encode_query c1Spans c1Text emptyStore).2.2).1 ≠ c1Text := by
  refine ⟨noTokSub_short (by decide), by decide, by decide, by decide⟩

/-- C1 (amended): round trip on the happy path.  For every input text with
no substring matching the token grammar and every list of nonempty,
in-bounds, **pairwise-disjoint** detected spans of recognized entity
types, if after `encode_query` every span's mapping is present in the
in-process store (no token collision overwrote it), then `decode_text`
applied to the encoded text with that store reproduces the original text
exactly. -/
theorem claim_C1_roundtrip {detected : List Span} {text : List Char} {st : Store}
    (hno : NoTokSub text)
    (hsep : List.Pairwise SpanSep detected)
    (hne : ∀ sp ∈ detected, sp.start < sp.stop)
    (hbound : ∀ sp ∈ detected, sp.stop ≤ text.length)
    (hent : ∀ sp ∈ detected, sp.entity_type ∈ PII_ENTITIES)
    (hstored : ∀ sp ∈ detected,
      lookupA (encode_query detected text st).2.2.token_store (tokOf text sp) =
        some (encrypt_value (valOf text sp))) :
    (decode_text (encode_query detected text st).1
      (encode_query detected text st).2.2).1 = text :=
  decode_encode_roundtrip hno hsep hne hbound hent hstored

def c1wText : List Char := ['J', 'o', 'h', 'n', ' ', 'x']
def c1wSpans : List Span := [⟨etPERSON, 0, 4⟩]

theorem claim_C1_witness :
    (decode_text (encode_query c1wSpans c1wText emptyStore).1
      (encode_query c1wSpans c1wText emptyStore).2.2).1 = c1wText :=
  claim_C1_roundtrip (noTokSub_short (by decide)) (by decide) (by decide)
    (by decide) (by decide) (by decide)

def c3Store : Store := ⟨[(['T'], [])], false, [], [(['T'], ['X'])]⟩

/-- C3 (counterexample): the claim says the lookup returns the in-process
value whenever the token is present there, but `decode_text` tests the
value with Python truthiness (`if not encrypted_val`), so an empty-string
ciphertext present in the in-process cache is treated as a miss and the
file-tier value is returned (and back-filled over it) instead. -/
theorem claim_C3_counterexample :
    lookupA c3Store.token_store ['T'] = some [] ∧
    (storeGet c3Store ['T']).1 = some ['X'] ∧
    (storeGet c3Store ['T']).1 ≠ some ([] : List Char) :=
  ⟨by decide, by decide, by decide⟩

/-- C3 (amended): tier precedence and back-fill on lookup, for non-empty
ciphertexts.  (1) A token present in the in-process cache with a
non-empty ciphertext is answered from there, with no state change and no
slower-tier access, whatever the other tiers hold.  (2) On an in-process
miss with the external cache connected holding a non-empty value, that
value is returned, the external tier was accessed, the in-process cache is
back-filled, and a subsequent lookup is served from the in-process cache
without touching the slower tiers.  (3) Likewise for an external
miss/unreachability resolved by the file tier. -/
theorem claim_C3_tier_precedence (st : Store) (tok : List Char) :
    (∀ v, lookupA st.token_store tok = some v → v ≠ [] →
      storeGet st tok = (some v, st, false, false)) ∧
    (∀ v, truthy (lookupA st.token_store tok) = false → st.redisConnected = true →
      lookupR st.redisPii tok = some v → v ≠ [] →
      (storeGet st tok).1 = some v ∧
      (storeGet st tok).2.2.1 = true ∧
      lookupA (storeGet st tok).2.1.token_store tok = some v ∧
      storeGet (storeGet st tok).2.1 tok = (some v, (storeGet st tok).2.1, false, false)) ∧
    (∀ v, truthy (lookupA st.token_store tok) = false →
      truthy (get_pii_mapping st tok) = false →
      lookupA st.tokenFile tok = some v → v ≠ [] →
      (storeGet st tok).1 = some v ∧
      (storeGet st tok).2.2.2 = true ∧
      lookupA (storeGet st tok).2.1.token_store tok = some v ∧
      storeGet (storeGet st tok).2.1 tok = (some v, (storeGet st tok).2.1, false, false)) := by
  refine ⟨fun v h0 hne => storeGet_hit h0 hne, fun v h0 hconn hr hne => ?_, fun v h0 hg hf hne => ?_⟩
  · have hg : get_pii_mapping st tok = some v := by
      simp [get_pii_mapping, hconn, hr]
    have ht := truthy_some hne
    have hst : lookupA (storeGet st tok).2.1.token_store tok = some v := by
      simp [storeGet, h0, hconn, hg, ht, lookupA_insertA_self]
    exact ⟨by simp [storeGet, h0, hconn, hg, ht],
      by simp [storeGet, h0, hconn, hg, ht], hst, storeGet_hit hst hne⟩
  · have ht := truthy_some hne
    rcases hconn : st.redisConnected with _ | _ <;>
    · have hst : lookupA (storeGet st tok).2.1.token_store tok = some v := by
        simp [storeGet, h0, hg, hf, ht, hconn, get_persisted_token, lookupA_insertA_self]
      exact ⟨by simp [storeGet, h0, hg, hf, ht, hconn, get_persisted_token],
        by simp [storeGet, h0, hg, hf, ht, hconn],
        hst, storeGet_hit hst hne⟩

def c3aStore : Store := ⟨[(['T'], ['c'])], false, [], [(['T'], ['X'])]⟩
def c3bStore : Store := ⟨[], true, [(['T'], ['r'], 9)], []⟩
def c3cStore : Store := ⟨[], false, [], [(['T'], ['f'])]⟩

theorem claim_C3_witness :
    storeGet c3aStore ['T'] = (some ['c'], c3aStore, false, false) ∧
    ((storeGet c3bStore ['T']).1 = some ['r'] ∧
      storeGet (storeGet c3bStore ['T']).2.1 ['T'] =
        (some ['r'], (storeGet c3bStore ['T']).2.1, false, false)) ∧
    ((storeGet c3cStore ['T']).1 = some ['f'] ∧
      storeGet (storeGet c3cStore ['T']).2.1 ['T'] =
        (some ['f'], (storeGet c3cStore ['T']).2.1, false, false)) :=
  ⟨(claim_C3_tier_precedence c3aStore ['T']).1 ['c'] (by decide) (by decide),
   ⟨((claim_C3_tier_precedence c3bStore ['T']).2.1 ['r'] (by decide) (by decide)
      (by decide) (by decide)).1,
    ((claim_C3_tier_precedence c3bStore ['T']).2.1 ['r'] (by decide) (by decide)
      (by decide) (by decide)).2.2.2⟩,
   ⟨((claim_C3_tier_precedence c3cStore ['T']).2.2 ['f'] (by decide) (by decide)
      (by decide) (by decide)).1,
    ((claim_C3_tier_precedence c3cStore ['T']).2.2 ['f'] (by decide) (by decide)
      (by decide) (by decide)).2.2.2⟩⟩

/-! ## State localization for the decoder loop (claim C4) -/

/-- The two stores agree on connectivity, the slower tiers, and every
in-process key outside `S`. -/
def AgreeExcS (S : List (List Char)) (st st2 : Store) : Prop :=
  st.redisConnected = st2.redisConnected ∧ st.redisPii = st2.redisPii ∧
    st.tokenFile = st2.tokenFile ∧
    ∀ k, k ∉ S → lookupA st.token_store k = lookupA st2.token_store k

theorem agreeExcS_rfl {S : List (List Char)} {st : Store} : AgreeExcS S st st :=
  ⟨rfl, rfl, rfl, fun _ _ => rfl⟩

theorem agreeExcS_trans {S : List (List Char)} {st1 st2 st3 : Store}
    (h1 : AgreeExcS S st1 st2) (h2 : AgreeExcS S st2 st3) : AgreeExcS S st1 st3 :=
  ⟨h1.1.trans h2.1, h1.2.1.trans h2.2.1, h1.2.2.1.trans h2.2.2.1,
   fun k hk => (h1.2.2.2 k hk).trans (h2.2.2.2 k hk)⟩

theorem agreeExcS_mono {S S2 : List (List Char)} {st st2 : Store}
    (hsub : ∀ k, k ∈ S → k ∈ S2) (h : AgreeExcS S st st2) : AgreeExcS S2 st st2 :=
  ⟨h.1, h.2.1, h.2.2.1, fun k hk => h.2.2.2 k fun hm => hk (hsub k hm)⟩

/-- A tiered read writes at most the looked-up key of the in-process
tier and leaves everything else untouched. -/
theorem storeGet_state (st : Store) (tok : List Char) :
    AgreeExcS [tok] (storeGet st tok).2.1 st := by
  have hne : ∀ k, k ∉ [tok] → k ≠ tok := by
    intro k hk
    simpa using hk
  simp only [storeGet]
  split_ifs <;>
    exact ⟨rfl, rfl, rfl, fun k hk => by
      simp [lookupA_insertA_ne (hne k hk)]⟩

/-- Reading a key outside `S` gives the same result on stores agreeing
outside `S`, and preserves the agreement. -/
theorem storeGet_congr {S : List (List Char)} {st st2 : Store} (h : AgreeExcS S st st2)
    {tok : List Char} (htok : tok ∉ S) :
    (storeGet st tok).1 = (storeGet st2 tok).1 ∧
      AgreeExcS S (storeGet st tok).2.1 (storeGet st2 tok).2.1 := by
  obtain ⟨h1, h2, h3, h4⟩ := h
  have he0 : lookupA st.token_store tok = lookupA st2.token_store tok := h4 tok htok
  have hgp : get_pii_mapping st tok = get_pii_mapping st2 tok := by
    simp [get_pii_mapping, h1, h2]
  have hfp : get_persisted_token st tok = get_persisted_token st2 tok := by
    simp [get_persisted_token, h3]
  constructor
  · simp only [storeGet, he0, h1, hgp, hfp]
  · simp only [storeGet, he0, h1, hgp, hfp]
    split_ifs <;>
      refine ⟨by simpa using h1, by simpa using h2, by simpa using h3, fun k hk => ?_⟩ <;>
      · by_cases hkt : k = tok
        · subst hkt
          first
            | simp [lookupA_insertA_self]
            | exact h4 _ hk
        · first
            | simpa [lookupA_insertA_ne hkt] using h4 k hk
            | exact h4 k hk

/-- The decode loop touches only the keys it processes. -/
theorem decodeLoop_state :
    ∀ (L : List (List Char)) (cur : List Char) (st : Store),
      AgreeExcS L (decodeLoop L cur st).2 st := by
  intro L
  induction L with
  | nil => exact fun _ _ => agreeExcS_rfl
  | cons t ts ih =>
    intro cur st
    have hsub : ∀ k, k ∈ ts → k ∈ t :: ts := fun k hk => List.mem_cons_of_mem _ hk
    have hone : AgreeExcS (t :: ts) (storeGet st t).2.1 st :=
      agreeExcS_mono (fun k hk => by simpa using Or.inl (by simpa using hk))
        (storeGet_state st t)
    simp only [decodeLoop]
    split_ifs
    · rcases decrypt_value ((storeGet st t).1.getD []) with _ | ov
      · exact agreeExcS_trans (agreeExcS_mono hsub (ih cur _)) hone
      · exact agreeExcS_trans (agreeExcS_mono hsub (ih _ _)) hone
    · exact agreeExcS_trans (agreeExcS_mono hsub (ih cur _)) hone

/-- The decode loop's text output is unchanged between stores that agree
on all the keys it processes. -/
theorem decodeLoop_congr {S : List (List Char)} :
    ∀ (L : List (List Char)) (cur : List Char) (st st2 : Store),
      AgreeExcS S st st2 → (∀ u ∈ L, u ∉ S) →
      (decodeLoop L cur st).1 = (decodeLoop L cur st2).1 := by
  intro L
  induction L with
  | nil => exact fun _ _ _ _ _ => rfl
  | cons t ts ih =>
    intro cur st st2 hag hL
    obtain ⟨hres, hag2⟩ := storeGet_congr hag (hL t (List.mem_cons_self _ _))
    have hLts : ∀ u ∈ ts, u ∉ S := fun u hu => hL u (List.mem_cons_of_mem _ hu)
    simp only [decodeLoop, hres]
    split_ifs
    · rcases decrypt_value ((storeGet st2 t).1.getD []) with _ | ov
      · exact ih _ _ _ hag2 hLts
      · exact ih _ _ _ hag2 hLts
    · exact ih _ _ _ hag2 hLts

/-- Resolution of a token fails: no tier holds it, or the stored
ciphertext does not decrypt. -/
def resolveFails (st : Store) (t : List Char) : Prop :=
  (storeGet st t).1 = none ∨
    ∃ c, (storeGet st t).1 = some c ∧ decrypt_value c = none

/-- A token whose resolution fails is processed as a no-op: the loop's
text output is as if the token were not in the list at all. -/
theorem decodeLoop_skip {t : List Char} :
    ∀ (xs ys : List (List Char)) (cur : List Char) (st : Store),
      t ∉ xs → t ∉ ys → resolveFails st t →
      (decodeLoop (xs ++ t :: ys) cur st).1 = (decodeLoop (xs ++ ys) cur st).1 := by
  intro xs
  induction xs with
  | nil =>
    intro ys cur st _ htys hfail
    have hag : AgreeExcS [t] (storeGet st t).2.1 st := storeGet_state st t
    have hys : ∀ u ∈ ys, u ∉ [t] := by
      intro u hu
      simp only [List.mem_singleton]
      intro he
      exact htys (he ▸ hu)
    have hcong := decodeLoop_congr ys cur _ _ hag hys
    simp only [List.nil_append]
    rcases hfail with hn | ⟨c, hc, hdec⟩
    · simp only [decodeLoop, hn, truthy]
      exact hcong
    · simp only [decodeLoop, hc]
      split_ifs
      · simp only [Option.getD_some, hdec]
        exact hcong
      · exact hcong
  | cons x xs2 ih =>
    intro ys cur st htxs htys hfail
    have htx : t ≠ x := fun he => htxs (he ▸ List.mem_cons_self _ _)
    have htxs2 : t ∉ xs2 := fun hm => htxs (List.mem_cons_of_mem _ hm)
    have hag : AgreeExcS [x] (storeGet st x).2.1 st := storeGet_state st x
    have hfail2 : resolveFails (storeGet st x).2.1 t := by
      have := (storeGet_congr hag (show t ∉ [x] by simpa using htx)).1
      rcases hfail with hn | ⟨c, hc, hdec⟩
      · exact Or.inl (this.trans hn)
      · exact Or.inr ⟨c, this.trans hc, hdec⟩
    simp only [List.cons_append, decodeLoop]
    split_ifs
    · rcases decrypt_value ((storeGet st x).1.getD []) with _ | ov
      · exact ih ys _ _ htxs2 htys hfail2
      · exact ih ys _ _ htxs2 htys hfail2
    · exact ih ys _ _ htxs2 htys hfail2

/-- C4: fail-open decode.  For every input text, if a substring matching
the token grammar is found but no tier of the store has a mapping for it,
or the stored ciphertext fails to decrypt, `decode_text` leaves that token
in place and the rest of the text is processed exactly as if the token
were absent from the found list — and no exception is raised
(`decode_text` is a total function; every failure path in the source is
caught). -/
theorem claim_C4_fail_open (text : List Char) (st : Store) (t : List Char)
    (hmem : t ∈ (findAll text).dedup)
    (hfail : (storeGet st t).1 = none ∨
      ∃ c, (storeGet st t).1 = some c ∧ decrypt_value c = none) :
    (decode_text text st).1 = (decodeLoop (((findAll text).dedup).erase t) text st).1 := by
  obtain ⟨xs, ys, hsplit⟩ := List.append_of_mem hmem
  have hnodup := List.nodup_dedup (findAll text)
  rw [hsplit] at hnodup
  obtain ⟨hnxs, hncons, hdisj⟩ := List.nodup_append.mp hnodup
  have htxs : t ∉ xs := fun hm => hdisj hm (List.mem_cons_self _ _)
  have htys : t ∉ ys := (List.nodup_cons.mp hncons).1
  unfold decode_text
  rw [hsplit, List.erase_append_right _ htxs, List.erase_cons_head]
  exact decodeLoop_skip xs ys text st htxs htys hfail

def c4Text : List Char :=
  ['s', 'e', 'e', ' ', '[', 'P', 'E', 'R', 'S', 'O', 'N', '_',
   '0', '0', '0', '0', '0', '0', '0', '0', ']', ' ', 'n', 'o', 'w']

def c4Tok : List Char :=
  ['[', 'P', 'E', 'R', 'S', 'O', 'N', '_',
   '0', '0', '0', '0', '0', '0', '0', '0', ']']

theorem claim_C4_witness :
    c4Tok ∈ (findAll c4Text).dedup ∧
      (decode_text c4Text emptyStore).1 =
        (decodeLoop (((findAll c4Text).dedup).erase c4Tok) c4Text emptyStore).1 :=
  ⟨by decide,
   claim_C4_fail_open c4Text emptyStore c4Tok (by decide) (Or.inl (by decide))⟩

/-! ## C9: frame facts for the tabular entry points -/

/-- The first component of the `encode_results` cell fold depends only on
the accumulated text, never on the accumulated store. -/
theorem foldl_fst_indep {α β σ : Type} (g : α → β → α) (f : α × σ → β → σ) :
    ∀ (l : List β) (a : α) (s s2 : σ),
      (l.foldl (fun p e => (g p.1 e, f p e)) (a, s)).1 =
      (l.foldl (fun p e => (g p.1 e, f p e)) (a, s2)).1 := by
  intro l
  induction l with
  | nil => intro a s s2; rfl
  | cons e es ih => intro a s s2; exact ih (g a e) _ _

/-- The encoded value of a cell does not depend on the store that is
threaded through `encode_results`: each cell is rewritten independently. -/
theorem encodeCell_fst_indep (det : List Char → List Span) (c : Cell)
    (st st2 : Store) : (encodeCell det st c).1 = (encodeCell det st2 c).1 := by
  cases c with
  | other v => rfl
  | str s =>
    simp only [encodeCell]
    by_cases he : (det s).isEmpty
    · simp [he]
    · simp only [he, Bool.false_eq_true, if_false]
      exact congrArg Cell.str
        (foldl_fst_indep
          (fun a ent =>
            a.take ent.start ++
              get_token_hash (sliceStr s ent.start ent.stop) ent.entity_type ++
              a.drop ent.stop)
          (fun p ent =>
            storePut p.2
              (get_token_hash (sliceStr s ent.start ent.stop) ent.entity_type)
              (encrypt_value (sliceStr s ent.start ent.stop)) PII_TTL_SECONDS)
          (sortByStartDesc (det s)) s st st2)

/-- A row is encoded cell by cell, each cell independently of the store. -/
theorem encodeRow_map (det : List Char → List Span) :
    ∀ (cs : List Cell) (st st2 : Store),
      (encodeRow det cs st).1 = cs.map (fun c => (encodeCell det st2 c).1) := by
  intro cs
  induction cs with
  | nil => intro st st2; rfl
  | cons c cs2 ih =>
    intro st st2
    simp only [encodeRow, List.map]
    rw [encodeCell_fst_indep det c st st2, ih _ st2]

/-- The rows produced by `encode_results` are the input rows with every
cell rewritten independently. -/
theorem encode_results_map (det : List Char → List Span)
    (columns : List (List Char)) :
    ∀ (rows : List (List Cell)) (st st2 : Store),
      (encode_results det columns rows st).1 =
        rows.map (List.map (fun c => (encodeCell det st2 c).1)) := by
  intro rows
  induction rows with
  | nil => intro st st2; rfl
  | cons row rest ih =>
    intro st st2
    simp only [encode_results, List.map]
    rw [encodeRow_map det row st st2, ih _ st2]

/-- Per-cell frame fact for encoding: non-string cells are unchanged and
string cells stay strings. -/
theorem cellFrame_encodeCell (det : List Char → List Span) (st : Store)
    (c : Cell) : cellFrame c (encodeCell det st c).1 := by
  cases c with
  | other v => rfl
  | str s =>
    show ∃ s2, (encodeCell det st (.str s)).1 = Cell.str s2
    by_cases he : (det s).isEmpty
    · exact ⟨s, by simp [encodeCell, he]⟩
    · simp only [encodeCell, he, Bool.false_eq_true, if_false]
      exact ⟨_, rfl⟩

/-- Per-row frame fact for decoding. -/
theorem decodeRow_frame :
    ∀ (cs : List Cell) (st : Store),
      List.Forall₂ cellFrame cs (decodeRow cs st).1 := by
  intro cs
  induction cs with
  | nil => intro st; exact List.Forall₂.nil
  | cons c cs2 ih =>
    intro st
    cases c with
    | str s => exact List.Forall₂.cons ⟨_, rfl⟩ (ih _)
    | other v => exact List.Forall₂.cons rfl (ih _)

/-- Frame fact for decoding a list of rows. -/
theorem decodeRows_frame :
    ∀ (rows : List (List Cell)) (st : Store),
      List.Forall₂ (List.Forall₂ cellFrame) rows (decodeRows rows st).1 := by
  intro rows
  induction rows with
  | nil => intro st; exact List.Forall₂.nil
  | cons row rest ih =>
    intro st
    exact List.Forall₂.cons (decodeRow_frame row st) (ih _)

/-- Frame fact for decoding one dict row. -/
theorem decodeRecord_frame :
    ∀ (kvs : List (List Char × Cell)) (st : Store),
      List.Forall₂ recFrame kvs (decodeRecord kvs st).1 := by
  intro kvs
  induction kvs with
  | nil => intro st; exact List.Forall₂.nil
  | cons kv kvs2 ih =>
    intro st
    obtain ⟨k, c⟩ := kv
    cases c with
    | str s => exact List.Forall₂.cons ⟨rfl, _, rfl⟩ (ih _)
    | other v => exact List.Forall₂.cons ⟨rfl, rfl⟩ (ih _)

/-- Frame fact for decoding a list of dict rows. -/
theorem decodeRecords_frame :
    ∀ (items : List (List (List Char × Cell))) (st : Store),
      List.Forall₂ (List.Forall₂ recFrame) items (decodeRecords items st).1 := by
  intro items
  induction items with
  | nil => intro st; exact List.Forall₂.nil
  | cons item rest ih =>
    intro st
    exact List.Forall₂.cons (decodeRecord_frame item st) (ih _)

/-- C9: non-string cells pass through `encode_results` and
`decode_results` unchanged, the output has the same number of rows and
the same number of cells per row as the input, and only string-typed
cells are rewritten, each cell independently: the encoded table is the
cell-wise image of the input under a per-cell function that does not
depend on the threaded store, and input and output are related row by
row and cell by cell by the frame relations (`List.Forall₂` forces equal
lengths at both levels). -/
theorem claim_C9_frame (det : List Char → List Span) (columns : List (List Char))
    (rows : List (List Cell)) (items : List (List (List Char × Cell)))
    (rc : Int) (st st2 : Store) :
    (encode_results det columns rows st).1 =
        rows.map (List.map (fun c => (encodeCell det st2 c).1)) ∧
      List.Forall₂ (List.Forall₂ cellFrame) rows (encode_results det columns rows st).1 ∧
      (decode_results (.tabular columns rows rc) st).1 =
        .tabular columns (decodeRows rows st).1 rc ∧
      List.Forall₂ (List.Forall₂ cellFrame) rows (decodeRows rows st).1 ∧
      (decode_results (.rowList rows) st).1 = .rowList (decodeRows rows st).1 ∧
      (decode_results (.records items) st).1 = .records (decodeRecords items st).1 ∧
      List.Forall₂ (List.Forall₂ recFrame) items (decodeRecords items st).1 := by
  refine ⟨encode_results_map det columns rows st st2, ?_, rfl,
    decodeRows_frame rows st, rfl, rfl, decodeRecords_frame items st⟩
  rw [encode_results_map det columns rows st st2]
  rw [List.forall₂_map_right_iff]
  rw [List.forall₂_same]
  intro row _
  rw [List.forall₂_map_right_iff]
  rw [List.forall₂_same]
  intro c _
  exact cellFrame_encodeCell det st2 c
